import Mathlib

/-!
# Verification of the vfx_editor_v2 core model

A shallow embedding of the core of the `vfx_editor_v2` repository:

* the effect-export serializer (`CryEngineExporter` in `src/unnamed/part_005`,
  the updated exporter with the `exportAllParameters` toggle):
  `formatValue`, `escapeXML`, `hexToRgb`, `generateParamsAttributes`;
* the parameter schema registry (`CryEngineParameterParser` in
  `src/mockup01/js/cryEngineParameterParser.js`): `getParameter` and the
  load-time population of the name/label/alias maps;
* the expression engine (`ParameterManager` in `src/unnamed/part_006`,
  second, XML-driven copy, lines 1497 ff.): `extractReferences`,
  `setExpression`, `clearExpression`, `evaluateExpression`,
  `handleValueChange`.

Modelling conventions:

* JavaScript numbers are modelled as exact rationals (`Q` below) plus a
  distinguished `NaN`; the modelled fragment only manipulates small
  terminating decimals, where double arithmetic is exact.
* JavaScript `Map`/`Set` are modelled as `String → Option α` functions and
  insertion-ordered duplicate-free lists, respectively.
* DOM widget storage for parameter values is modelled as a plain
  name-to-value map (the spec's core-only scope excludes DOM rendering, so
  widget-specific write-through such as slider clamping is outside the model).
* All definitions are structural/fuel-based recursions so that every
  concrete run can be checked by kernel reduction.
-/

/-- Exact rational numbers in canonical form, standing in for the JavaScript
doubles manipulated by the modelled code.  All constructions go through
`Q.norm`, so structural equality is value equality. -/
structure Q where
  num : Int
  den : Nat
deriving DecidableEq, Repr

/-- Normalise a numerator/denominator pair (denominator `0` is never produced
by the modelled operations; it is mapped to the canonical zero). -/
def Q.norm (n : Int) (d : Nat) : Q :=
  if d = 0 then ⟨0, 1⟩
  else
    let g := n.natAbs.gcd d
    ⟨n / (g : Int), d / g⟩

def Q.ofNat (n : Nat) : Q := ⟨(n : Int), 1⟩

def Q.ofInt (n : Int) : Q := ⟨n, 1⟩

def Q.add (a b : Q) : Q := Q.norm (a.num * b.den + b.num * a.den) (a.den * b.den)

def Q.sub (a b : Q) : Q := Q.norm (a.num * b.den - b.num * a.den) (a.den * b.den)

def Q.mul (a b : Q) : Q := Q.norm (a.num * b.num) (a.den * b.den)

/-- Division; callers guard against a zero divisor. -/
def Q.div (a b : Q) : Q :=
  if b.num < 0 then Q.norm (-(a.num * b.den)) (a.den * b.num.natAbs)
  else Q.norm (a.num * b.den) (a.den * b.num.natAbs)

def Q.neg (a : Q) : Q := ⟨-a.num, a.den⟩

/-- `Number.isInteger` on a canonical rational. -/
def Q.isInt (a : Q) : Bool := a.den == 1

def Q.isNeg (a : Q) : Bool := a.num < 0

/-- A JavaScript number: either an (exactly represented) value or `NaN`. -/
inductive JNum where
  | val (q : Q)
  | nan
deriving DecidableEq, Repr

/-- The JavaScript values flowing through the modelled slice: numbers,
strings, booleans, numeric arrays (vectors) and `{r,g,b}` colour objects. -/
inductive JsValue where
  | num (n : JNum)
  | str (s : String)
  | bool (b : Bool)
  | vec (l : List JNum)
  | rgb (r g b : Q)
deriving DecidableEq, Repr

/-- Decimal digits of `n`, most significant first; `fuel`-guarded division
loop (any `fuel ≥ n` gives the exact digits). -/
def natToDigitsGo : Nat → Nat → List Char → List Char
  | 0, n, acc => Char.ofNat (48 + n % 10) :: acc
  | fuel+1, n, acc =>
    if n < 10 then Char.ofNat (48 + n) :: acc
    else natToDigitsGo fuel (n / 10) (Char.ofNat (48 + n % 10) :: acc)

def natToDigits (n : Nat) : List Char := natToDigitsGo n n []

/-- Decimal rendering of a natural number (JS `Number.prototype.toString`
restricted to the naturals). -/
def natToDecimal (n : Nat) : String := ⟨natToDigits n⟩

/-- Decimal rendering of an integer (JS `Number.prototype.toString` on
integer-valued doubles). -/
def intToDecimal (i : Int) : String :=
  (if i < 0 then "-" else "") ++ natToDecimal i.natAbs

/-- The decimal digits of `n < 1000` left-padded with zeros to width 3. -/
def padThree (n : Nat) : List Char :=
  let d := natToDigits n
  List.replicate (3 - d.length) '0' ++ d

/-- Models `Number.prototype.toFixed(3)`: the sign is split off first, then
the absolute value is rounded to the nearest thousandth, ties away from
zero, exactly as ECMA-262 specifies (pick the larger candidate). -/
def jsToFixed3 (q : Q) : String :=
  let n := (2000 * q.num.natAbs + q.den) / (2 * q.den)
  (if q.isNeg then "-" else "") ++ natToDecimal (n / 1000) ++ "." ++ ⟨padThree (n % 1000)⟩

/-- `toFixed(3)` lifted to JS numbers: `NaN.toFixed(3)` is `"NaN"`. -/
def jnumToFixed3 : JNum → String
  | .val q => jsToFixed3 q
  | .nan => "NaN"

/-- `Number.isInteger` on a JS number (`false` on `NaN`). -/
def jnumIsInt : JNum → Bool
  | .val q => q.isInt
  | .nan => false

/-- One numeric component of `formatValue`: source
`Number.isInteger(value) ? value.toString() : value.toFixed(3)`
(`src/unnamed/part_005` lines 705-709, and per array element lines 710-713). -/
def formatNum : JNum → String
  | .val q => if q.isInt then intToDecimal q.num else jsToFixed3 q
  | .nan => "NaN"

namespace CryEngineExporter

/-- Per-character XML escaping (the regex replacement table of `escapeXML`,
`src/unnamed/part_005` lines 769-781). -/
def escChar (c : Char) : List Char :=
  if c = '<' then "&lt;".toList
  else if c = '>' then "&gt;".toList
  else if c = '&' then "&amp;".toList
  else if c = '\'' then "&apos;".toList
  else if c = '"' then "&quot;".toList
  else [c]

/-- `escapeXML` (`src/unnamed/part_005` lines 769-781).  A falsy argument
(here: the empty string) is returned as the empty string. -/
def escapeXML (s : String) : String :=
  if s = "" then "" else ⟨s.toList.flatMap escChar⟩

/-- A character admitted by the source's `[a-f\d]` hex class under the
case-insensitive flag. -/
def isHexChar (c : Char) : Bool :=
  c.isDigit || ('a' ≤ c && c ≤ 'f') || ('A' ≤ c && c ≤ 'F')

/-- Value of one hex digit. -/
def hexVal (c : Char) : Nat :=
  if c.isDigit then c.toNat - 48
  else if 'a' ≤ c && c ≤ 'f' then c.toNat - 87
  else c.toNat - 55

/-- The optional leading `#` of the colour regex. -/
def stripHash : List Char → List Char
  | '#' :: rest => rest
  | cs => cs

/-- The result of the anchored regex
`^#?([a-f\d]{2})([a-f\d]{2})([a-f\d]{2})$/i` applied in `hexToRgb`:
`some` of the three parsed channels on a match (an optional leading `#`
followed by exactly six hex digits), `none` otherwise. -/
def hexMatch (s : String) : Option (Q × Q × Q) :=
  match stripHash s.toList with
  | [c1, c2, c3, c4, c5, c6] =>
    if [c1, c2, c3, c4, c5, c6].all isHexChar then
      some (Q.ofNat (16 * hexVal c1 + hexVal c2),
            Q.ofNat (16 * hexVal c3 + hexVal c4),
            Q.ofNat (16 * hexVal c5 + hexVal c6))
    else none
  | _ => none

/-- Does the string match the source's 6-hex-digit colour pattern? -/
def isValidHexColor (s : String) : Bool := (hexMatch s).isSome

/-- `hexToRgb` (`src/unnamed/part_005` lines 729-736): `result ? {parsed
channels} : {r:255, g:255, b:255}`. -/
def hexToRgb (s : String) : Q × Q × Q :=
  (hexMatch s).getD (Q.ofNat 255, Q.ofNat 255, Q.ofNat 255)

/-- The `{r,g,b}` object branch of `formatValue`
(`src/unnamed/part_005` lines 716-724): each channel divided by 255 and
rendered with `toFixed(3)`, comma-joined. -/
def rgbToString (r g b : Q) : String :=
  jsToFixed3 (r.div (Q.ofNat 255)) ++ "," ++
  jsToFixed3 (g.div (Q.ofNat 255)) ++ "," ++
  jsToFixed3 (b.div (Q.ofNat 255))

/-- Does the string start with `#` (the source's `value.startsWith('#')`)? -/
def startsWithHash (s : String) : Bool :=
  match s.toList with
  | '#' :: _ => true
  | _ => false

/-- `formatValue` (`src/unnamed/part_005` lines 697-727): strings starting
with `#` are routed through `hexToRgb` and formatted as a colour object;
other strings are XML-escaped; booleans render as literal `true`/`false`;
numbers render as integer text or `toFixed(3)`; arrays map the same
number formatting over their elements and join with commas; `{r,g,b}`
objects render as channel/255 at 3 decimals. -/
def formatValue : JsValue → String
  | .str s =>
    if startsWithHash s then
      let t := hexToRgb s
      rgbToString t.1 t.2.1 t.2.2
    else escapeXML s
  | .bool b => if b then "true" else "false"
  | .num n => formatNum n
  | .vec l => String.intercalate "," (l.map formatNum)
  | .rgb r g b => rgbToString r g b

end CryEngineExporter

/-! ### Specification-side string-shape predicates (not part of the source) -/

/-- Core of the dot-splitter: the chunk up to the first `'.'` and the list
of chunks after it (specification-side helper used to phrase "decimal
places"). -/
def splitDotCore : List Char → List Char × List (List Char)
  | [] => ([], [])
  | c :: rest =>
    let p := splitDotCore rest
    if c = '.' then ([], p.1 :: p.2) else (c :: p.1, p.2)

/-- Split a character list at every `'.'`. -/
def splitDot (l : List Char) : List (List Char) :=
  (splitDotCore l).1 :: (splitDotCore l).2

/-- A rendered number has exactly three decimal places: one `'.'`, with
exactly three digit characters after it. -/
def hasThreeDecimals (s : String) : Bool :=
  match splitDot s.toList with
  | [_, frac] => frac.length == 3 && frac.all Char.isDigit
  | _ => false

/-- A rendered number contains no decimal point. -/
def hasNoDot (s : String) : Bool := decide ('.' ∉ s.toList)

/-! ### JavaScript numeric string parsing (`parseFloat`, `Number`) -/

/-- Numeric value of a list of decimal digit characters. -/
def digitsToNat (cs : List Char) : Nat :=
  cs.foldl (fun acc c => 10 * acc + (c.toNat - 48)) 0

/-- Shared decimal-literal scanner: consumes an optional sign, integer
digits, and an optional fraction, returning the value and the unconsumed
rest, or `none` when no digit is present at all.  (The schema defaults the
modelled code parses are plain decimal literals; exponent forms do not
occur there and are not modelled.) -/
def scanDecimal (cs : List Char) : Option (Q × List Char) :=
  let signed : Bool × List Char :=
    match cs with
    | '-' :: t => (true, t)
    | '+' :: t => (false, t)
    | _ => (false, cs)
  let neg := signed.1
  let cs1 := signed.2
  let intDigits := cs1.takeWhile Char.isDigit
  let rest1 := cs1.dropWhile Char.isDigit
  let fractioned : List Char × List Char :=
    match rest1 with
    | '.' :: t => (t.takeWhile Char.isDigit, t.dropWhile Char.isDigit)
    | _ => ([], rest1)
  let fracDigits := fractioned.1
  let rest2 := fractioned.2
  if intDigits.isEmpty && fracDigits.isEmpty then none
  else
    let mag : Int := (digitsToNat intDigits * 10 ^ fracDigits.length + digitsToNat fracDigits : Nat)
    some (Q.norm (if neg then -mag else mag) (10 ^ fracDigits.length), rest2)

/-- JS whitespace for the purposes of the modelled code. -/
def isJsSpace (c : Char) : Bool := c.isWhitespace

/-- `parseFloat(s)`: skip leading whitespace, parse the longest decimal
prefix, `NaN` when none exists. -/
def jsParseFloat (s : String) : JNum :=
  match scanDecimal (s.toList.dropWhile isJsSpace) with
  | some (q, _) => .val q
  | none => .nan

/-- `Number(s)`: trim whitespace on both sides; the empty string is `0`;
otherwise the whole remaining string must be a decimal literal, else `NaN`. -/
def jsNumberOfString (s : String) : JNum :=
  let t := (s.toList.dropWhile isJsSpace).reverse.dropWhile isJsSpace |>.reverse
  if t.isEmpty then .val (Q.ofNat 0)
  else
    match scanDecimal t with
    | some (q, []) => .val q
    | _ => .nan

/-- `"a,b,c".split(',')` on character lists (every JS string splits into at
least one piece; the empty string yields `[""]`). -/
def splitComma : List Char → List (List Char)
  | [] => [[]]
  | ',' :: rest => [] :: splitComma rest
  | c :: rest =>
    match splitComma rest with
    | g :: gs => (c :: g) :: gs
    | [] => [[c]]

/-! ### Parameter schema registry (`CryEngineParameterParser`) -/

/-- One parameter definition as loaded from the schema XML
(`src/mockup01/js/cryEngineParameterParser.js` lines 41-54): the `default`
attribute is kept as the raw string, exactly as `getAttribute` returns it. -/
structure ParamDef where
  name : String
  label : String
  type : String
  default : String
  «alias» : Option String := none
deriving DecidableEq, Repr

/-- A JS `Map` keyed by strings. -/
def SMap (α : Type) : Type := String → Option α

def SMap.empty {α : Type} : SMap α := fun _ => none

def SMap.set {α : Type} (m : SMap α) (k : String) (v : α) : SMap α :=
  fun x => if x = k then some v else m x

def SMap.del {α : Type} (m : SMap α) (k : String) : SMap α :=
  fun x => if x = k then none else m x

def SMap.get {α : Type} (m : SMap α) (k : String) : Option α := m k

/-- The three lookup maps of `CryEngineParameterParser`
(`src/mockup01/js/cryEngineParameterParser.js` lines 7-10). -/
structure Registry where
  aliases : SMap String
  parameterMap : SMap ParamDef
  parameterByLabel : SMap ParamDef

def Registry.empty : Registry := ⟨SMap.empty, SMap.empty, SMap.empty⟩

/-- The per-parameter body of the load loop
(`src/mockup01/js/cryEngineParameterParser.js` lines 59-66): register by
name, by label, and — when the definition carries a truthy alias — by
alias. -/
def Registry.insertDef (r : Registry) (d : ParamDef) : Registry :=
  { parameterMap := r.parameterMap.set d.name d
    parameterByLabel := r.parameterByLabel.set d.label d
    aliases :=
      match d.«alias» with
      | some a => if a = "" then r.aliases else r.aliases.set a d.name
      | none => r.aliases }

/-- Loading a definition list into an (accumulator) registry, in order. -/
def loadRegistryFrom (r : Registry) : List ParamDef → Registry
  | [] => r
  | d :: rest => loadRegistryFrom (r.insertDef d) rest

def loadRegistry (defs : List ParamDef) : Registry :=
  loadRegistryFrom Registry.empty defs

/-- The alias keys a definition list registers during load (a definition
with a falsy — absent or empty — `alias` attribute registers none). -/
def aliasKeysOf (defs : List ParamDef) : List String :=
  defs.filterMap fun d =>
    match d.«alias» with
    | some a => if a = "" then none else some a
    | none => none

/-- `getParameter` (`src/mockup01/js/cryEngineParameterParser.js` lines
92-100, identically lines 1121-1129): resolve an alias first (a falsy —
empty — alias target falls back to the key itself, as `||` does), then the
internal-name map, then the label map. -/
def Registry.getParameter (r : Registry) (name : String) : Option ParamDef :=
  let actualName :=
    match r.aliases.get name with
    | some a => if a = "" then name else a
    | none => name
  match r.parameterMap.get actualName with
  | some p => some p
  | none => r.parameterByLabel.get name

/-! ### Export diffing (`CryEngineExporter.generateParamsAttributes`) -/

namespace CryEngineExporter

/-- The default-coercion `switch` of `generateParamsAttributes`
(`src/unnamed/part_005` lines 656-668): float/int via `parseFloat`, bool
via `=== 'true'`, vec3 via `split(',').map(Number)`; every other type
keeps the raw default string. -/
def coerceDefault (d : ParamDef) : JsValue :=
  if d.type = "float" || d.type = "int" then .num (jsParseFloat d.default)
  else if d.type = "bool" then .bool (d.default = "true")
  else if d.type = "vec3" then
    .vec ((splitComma d.default.toList).map (fun cs => jsNumberOfString ⟨cs⟩))
  else .str d.default

/-- The source compares `JSON.stringify(currentValue) ===
JSON.stringify(defaultValue)` (`src/unnamed/part_005` line 672).  On this
value domain `JSON.stringify` is injective — `NaN` serialises to `null`,
which no other modelled value produces — so stringify-equality coincides
with structural equality. -/
def jsonDeepEq (a b : JsValue) : Bool := a == b

/-- One emitted `Params` attribute.  `key` records which `effect.params`
entry (the loop variable `paramName`) produced it; `name` and `value` are
the emitted attribute name and value, both already XML-escaped exactly as
appended to the output string (` name="value"`). -/
structure Attr where
  key : String
  name : String
  value : String
deriving DecidableEq, Repr

/-- The `console.warn` text for an unknown parameter
(`src/unnamed/part_005` line 648). -/
def unknownParamWarning (p : String) : String :=
  "Export warning: Parameter \"" ++ p ++ "\" not found in XML definitions. Skipping."

/-- The params loop of `generateParamsAttributes` (`src/unnamed/part_005`
lines 638-680): entries with no definition are warned about and skipped
(the source re-queries `getParameter` for a label fallback, but that second
query is the identical pure call, so its truthy branch is dead code);
known entries are emitted when the current value differs from the coerced
default or when `exportAllParameters` is set. -/
def processParam (reg : Registry) (exportAll : Bool) (paramName : String)
    (currentValue : JsValue) (prev : List Attr × List String) :
    List Attr × List String :=
  match reg.getParameter paramName with
  | none => (prev.1, unknownParamWarning paramName :: prev.2)
  | some definition =>
    if !(jsonDeepEq currentValue (coerceDefault definition)) || exportAll then
      ({ key := paramName
         name := escapeXML definition.name
         value := formatValue currentValue } :: prev.1, prev.2)
    else prev

def generateParamAttrs (reg : Registry) (exportAll : Bool) :
    List (String × JsValue) → List Attr × List String
  | [] => ([], [])
  | (paramName, currentValue) :: rest =>
    processParam reg exportAll paramName currentValue (generateParamAttrs reg exportAll rest)

/-- The expressions loop of `generateParamsAttributes`
(`src/unnamed/part_005` lines 683-688): every expression becomes an
attribute, using the definition's internal name when the key resolves. -/
def generateExprAttrs (reg : Registry) : List (String × String) → List Attr
  | [] => []
  | (paramName, expression) :: rest =>
    let actualParamName :=
      match reg.getParameter paramName with
      | some d => d.name
      | none => paramName
    { key := paramName
      name := escapeXML actualParamName
      value := escapeXML expression } :: generateExprAttrs reg rest

/-- `generateParamsAttributes` (`src/unnamed/part_005` lines 625-691) as a
structured attribute list plus the warnings it logs; the source
concatenates `attrsString` below onto the fixed `Inheritance`/
`ParticleSystem` prefix. -/
def generateParamsAttributes (reg : Registry) (exportAll : Bool)
    (params : List (String × JsValue)) (expressions : List (String × String)) :
    List Attr × List String :=
  let (pa, warns) := generateParamAttrs reg exportAll params
  (pa ++ generateExprAttrs reg expressions, warns)

/-- How the attribute list renders into the `<Params .../>` text. -/
def attrsString (attrs : List Attr) : String :=
  attrs.foldl
    (fun acc a => acc ++ " " ++ a.name ++ "=\"" ++ a.value ++ "\"")
    " Inheritance=\"System\" ParticleSystem=\"RParticleGPU\""

end CryEngineExporter

/-! ### Expression engine (`ParameterManager`, `src/unnamed/part_006` 1497 ff.) -/

namespace ParameterManager

/-- JS `Set.add`: append if not already present (insertion order kept). -/
def setAdd (l : List String) (x : String) : List String :=
  if x ∈ l then l else l ++ [x]

/-- JS `Set.delete`: remove the element. -/
def setErase (l : List String) (x : String) : List String :=
  l.filter (fun y => y ≠ x)

/-- JS `String.prototype.trim` on a character list. -/
def trimChars (cs : List Char) : List Char :=
  ((cs.dropWhile isJsSpace).reverse.dropWhile isJsSpace).reverse

/-- All matches of `/\$\{([^}]+)\}/g` (`extractReferences`,
`src/unnamed/part_006` lines 1936-1940), scanned left to right exactly as
`matchAll` does: on `"${"`, the capture is everything up to the next `'}'`
and must be non-empty; a failed match resumes one character further on. -/
def extractDollar : Nat → List Char → List String
  | 0, _ => []
  | _, [] => []
  | fuel+1, '$' :: rest =>
    match rest with
    | '\x7b' :: rest2 =>
      let content := rest2.takeWhile (fun c => c ≠ '\x7d')
      (match rest2.dropWhile (fun c => c ≠ '\x7d') with
       | '\x7d' :: after =>
         if content.isEmpty then extractDollar fuel rest
         else (⟨trimChars content⟩ : String) :: extractDollar fuel after
       | _ => extractDollar fuel rest)
    | _ => extractDollar fuel rest
  | fuel+1, _ :: rest => extractDollar fuel rest

/-- First character of the `@`-reference word class `[a-zA-Z_]`. -/
def isWordStart (c : Char) : Bool := c.isAlpha || c = '_'

/-- Continuation class `[a-zA-Z0-9_\s]` of an `@`-reference. -/
def isWordCont (c : Char) : Bool := c.isAlphanum || c = '_' || isJsSpace c

/-- All matches of `/@([a-zA-Z_][a-zA-Z0-9_\s]*)/g` (`extractReferences`,
`src/unnamed/part_006` lines 1942-1946). -/
def extractAt : Nat → List Char → List String
  | 0, _ => []
  | _, [] => []
  | fuel+1, '@' :: rest =>
    (match rest with
     | c :: rest2 =>
       if isWordStart c then
         (⟨trimChars (c :: rest2.takeWhile isWordCont)⟩ : String) ::
           extractAt fuel (rest2.dropWhile isWordCont)
       else extractAt fuel rest
     | [] => [])
  | fuel+1, _ :: rest => extractAt fuel rest

/-- All matches of `/%([^%]+)%/g` (`extractReferences`,
`src/unnamed/part_006` lines 1948-1951). -/
def extractPercent : Nat → List Char → List String
  | 0, _ => []
  | _, [] => []
  | fuel+1, '%' :: rest =>
    let content := rest.takeWhile (fun c => c ≠ '%')
    (match rest.dropWhile (fun c => c ≠ '%') with
     | '%' :: after =>
       if content.isEmpty then extractPercent fuel rest
       else (⟨trimChars content⟩ : String) :: extractPercent fuel after
     | _ => extractPercent fuel rest)
  | fuel+1, _ :: rest => extractPercent fuel rest

/-- `extractReferences` (`src/unnamed/part_006` lines 1933-1955): the three
token syntaxes are scanned in order and the trimmed names accumulated into
a `Set` (duplicate-free, first-insertion order). -/
def extractReferences (expression : String) : List String :=
  let cs := expression.toList
  (extractDollar cs.length cs ++ extractAt cs.length cs ++
    extractPercent cs.length cs).foldl setAdd []

/-! #### Value-to-string coercion used by the substitution callbacks -/

/-- Fractional decimal digits of `r/d`, stopping at remainder zero (the
modelled values all have terminating expansions; `fuel` bounds the
number of emitted digits). -/
def fracDigitsGo : Nat → Nat → Nat → List Char
  | 0, _, _ => []
  | fuel+1, r, d =>
    if r = 0 then []
    else Char.ofNat (48 + (r * 10) / d) :: fracDigitsGo fuel ((r * 10) % d) d

/-- JS `String(number)` on the modelled (terminating-decimal) numbers. -/
def jsNumToString (q : Q) : String :=
  if q.isInt then intToDecimal q.num
  else
    (if q.isNeg then "-" else "") ++ natToDecimal (q.num.natAbs / q.den) ++ "." ++
      (⟨fracDigitsGo 30 (q.num.natAbs % q.den) q.den⟩ : String)

def jnumToString : JNum → String
  | .val q => jsNumToString q
  | .nan => "NaN"

/-- JS `String(value)` coercion of a snapshot value interpolated into the
expression text by the `replace` callbacks. -/
def jsValueToString : JsValue → String
  | .num n => jnumToString n
  | .str s => s
  | .bool b => if b then "true" else "false"
  | .vec l => String.intercalate "," (l.map jnumToString)
  | .rgb _ _ _ => "[object Object]"

/-- The replacement text for one reference: the snapshot value if present,
else the number `0` (`values[name] !== undefined ? values[name] : 0`,
`src/unnamed/part_006` lines 1972-1982). -/
def refReplacement (values : SMap JsValue) (rawName : List Char) : String :=
  match values.get ⟨trimChars rawName⟩ with
  | some v => jsValueToString v
  | none => "0"

/-- The `\$\{...\}` replacement pass of `evaluateExpression`
(`src/unnamed/part_006` lines 1972-1974), same scan as `extractDollar`. -/
def substDollar (values : SMap JsValue) : Nat → List Char → List Char
  | 0, cs => cs
  | _, [] => []
  | fuel+1, '$' :: rest =>
    (match rest with
     | '\x7b' :: rest2 =>
       let content := rest2.takeWhile (fun c => c ≠ '\x7d')
       (match rest2.dropWhile (fun c => c ≠ '\x7d') with
        | '\x7d' :: after =>
          if content.isEmpty then '$' :: substDollar values fuel rest
          else (refReplacement values content).toList ++ substDollar values fuel after
        | _ => '$' :: substDollar values fuel rest)
     | _ => '$' :: substDollar values fuel rest)
  | fuel+1, c :: rest => c :: substDollar values fuel rest

/-- The `@name` replacement pass (`src/unnamed/part_006` lines 1976-1978). -/
def substAt (values : SMap JsValue) : Nat → List Char → List Char
  | 0, cs => cs
  | _, [] => []
  | fuel+1, '@' :: rest =>
    (match rest with
     | c :: rest2 =>
       if isWordStart c then
         (refReplacement values (c :: rest2.takeWhile isWordCont)).toList ++
           substAt values fuel (rest2.dropWhile isWordCont)
       else '@' :: substAt values fuel rest
     | [] => ['@'])
  | fuel+1, c :: rest => c :: substAt values fuel rest

/-- The `%name%` replacement pass (`src/unnamed/part_006` lines 1980-1982). -/
def substPercent (values : SMap JsValue) : Nat → List Char → List Char
  | 0, cs => cs
  | _, [] => []
  | fuel+1, '%' :: rest =>
    let content := rest.takeWhile (fun c => c ≠ '%')
    (match rest.dropWhile (fun c => c ≠ '%') with
     | '%' :: after =>
       if content.isEmpty then '%' :: substPercent values fuel rest
       else (refReplacement values content).toList ++ substPercent values fuel after
     | _ => '%' :: substPercent values fuel rest)
  | fuel+1, c :: rest => c :: substPercent values fuel rest

/-- The three sequential replacement passes of `evaluateExpression`
(`src/unnamed/part_006` lines 1969-1982). -/
def substituteRefs (values : SMap JsValue) (expression : String) : String :=
  let s1 := substDollar values expression.toList.length expression.toList
  let s2 := substAt values s1.length s1
  let s3 := substPercent values s2.length s2
  ⟨s3⟩

end ParameterManager

namespace ParameterManager

/-! #### The sandboxed numeric evaluation

The source evaluates the substituted text with `new Function('return ' +
evaluated)()` inside `try`/`catch` (`src/unnamed/part_006` lines
1985-1992).  The arithmetic fragment actually exercised — decimal
literals, `+ - * /`, unary sign, parentheses — is modelled by a
recursive-descent evaluator returning `none` where the dynamic evaluation
would throw (and, beyond the modelled fragment, on whitelisted math
functions and on division by zero). -/

/-- Skip whitespace. -/
def skipWs (cs : List Char) : List Char := cs.dropWhile isJsSpace

/-- An unsigned decimal literal `digits [. digits]` (at least one digit
somewhere). -/
def parseNumLit (cs : List Char) : Option (Q × List Char) :=
  let intDigits := cs.takeWhile Char.isDigit
  let rest1 := cs.dropWhile Char.isDigit
  let fractioned : List Char × List Char :=
    match rest1 with
    | '.' :: t => (t.takeWhile Char.isDigit, t.dropWhile Char.isDigit)
    | _ => ([], rest1)
  let fracDigits := fractioned.1
  if intDigits.isEmpty && fracDigits.isEmpty then none
  else
    some (Q.norm (digitsToNat intDigits * 10 ^ fracDigits.length + digitsToNat fracDigits)
            (10 ^ fracDigits.length), fractioned.2)

mutual

def parseExpr : Nat → List Char → Option (Q × List Char)
  | 0, _ => none
  | fuel+1, cs =>
    match parseTerm fuel cs with
    | some (t, cs1) => parseExprRest fuel t cs1
    | none => none

def parseExprRest : Nat → Q → List Char → Option (Q × List Char)
  | 0, _, _ => none
  | fuel+1, acc, cs =>
    match skipWs cs with
    | '+' :: rest =>
      (match parseTerm fuel rest with
       | some (t, cs2) => parseExprRest fuel (acc.add t) cs2
       | none => none)
    | '-' :: rest =>
      (match parseTerm fuel rest with
       | some (t, cs2) => parseExprRest fuel (acc.sub t) cs2
       | none => none)
    | _ => some (acc, cs)

def parseTerm : Nat → List Char → Option (Q × List Char)
  | 0, _ => none
  | fuel+1, cs =>
    match parseFactor fuel cs with
    | some (f, cs1) => parseTermRest fuel f cs1
    | none => none

def parseTermRest : Nat → Q → List Char → Option (Q × List Char)
  | 0, _, _ => none
  | fuel+1, acc, cs =>
    match skipWs cs with
    | '*' :: rest =>
      (match parseFactor fuel rest with
       | some (f, cs2) => parseTermRest fuel (acc.mul f) cs2
       | none => none)
    | '/' :: rest =>
      (match parseFactor fuel rest with
       | some (f, cs2) =>
         if f.num = 0 then none else parseTermRest fuel (acc.div f) cs2
       | none => none)
    | _ => some (acc, cs)

def parseFactor : Nat → List Char → Option (Q × List Char)
  | 0, _ => none
  | fuel+1, cs =>
    match skipWs cs with
    | '(' :: rest =>
      (match parseExpr fuel rest with
       | some (v, cs1) =>
         (match skipWs cs1 with
          | ')' :: cs2 => some (v, cs2)
          | _ => none)
       | none => none)
    | '-' :: rest =>
      (match parseFactor fuel rest with
       | some (v, cs1) => some (v.neg, cs1)
       | none => none)
    | '+' :: rest => parseFactor fuel rest
    | rest => parseNumLit rest

end

/-- Evaluate the substituted expression text; `none` models a thrown
exception (syntax error or non-arithmetic content). -/
def evalArith (s : String) : Option Q :=
  let cs := s.toList
  match parseExpr (5 * (cs.length + 1)) cs with
  | some (v, rest) => if (skipWs rest).isEmpty then some v else none
  | none => none

/-! #### The manager state and its operations -/

/-- The `ParameterManager` state slice the expression system touches:
`values` models the per-widget current values (one entry per rendered
parameter row), `expressions`/`references`/`dependents` are the engine's
three maps (`src/unnamed/part_006` lines 1507-1510). -/
structure PMState where
  values : SMap JsValue
  expressions : SMap String
  references : SMap (List String)
  dependents : SMap (List String)

/-- A fresh manager over the given widget values: no expressions, empty
dependency graph. -/
def pmInit (values : SMap JsValue) : PMState :=
  { values := values
    expressions := SMap.empty
    references := SMap.empty
    dependents := SMap.empty }

/-- `setParameterValue` (`src/unnamed/part_006` lines 1716-1769) restricted
to the modelled value store: a missing widget row is a no-op (`if
(!widget) return`); widget-kind-specific DOM write-through is outside the
modelled slice. -/
def setParameterValue (s : PMState) (paramName : String) (v : JsValue) : PMState :=
  match s.values.get paramName with
  | none => s
  | some _ => { s with values := s.values.set paramName v }

/-- `evaluateExpression` (`src/unnamed/part_006` lines 1957-1999): look up
the expression (absent ⇒ return), snapshot all current values, run the
three replacement passes, evaluate the resulting text, and on success
store the result; any evaluation failure is caught and logged, leaving
the state untouched. -/
def evaluateExpression (s : PMState) (paramName : String) : PMState :=
  match s.expressions.get paramName with
  | none => s
  | some expression =>
    let substituted := substituteRefs s.values expression
    match evalArith substituted with
    | some result => setParameterValue s paramName (.num (.val result))
    | none => s

/-- The old-reference cleanup step of `setExpression`
(`src/unnamed/part_006` lines 1904-1913): delete the target from each old
reference's dependent set, dropping sets that become empty. -/
def removeDependent (p : String) (dm : SMap (List String)) (ref : String) :
    SMap (List String) :=
  match dm.get ref with
  | some deps =>
    let deps' := setErase deps p
    if deps'.length = 0 then dm.del ref else dm.set ref deps'
  | none => dm

/-- The new-reference installation step of `setExpression`
(`src/unnamed/part_006` lines 1922-1927): ensure a dependent set exists
for the reference and add the target to it. -/
def addDependent (p : String) (dm : SMap (List String)) (ref : String) :
    SMap (List String) :=
  dm.set ref (setAdd ((dm.get ref).getD []) p)

/-- `setExpression` (`src/unnamed/part_006` lines 1902-1931): clear the old
references' back-edges, parse the new expression, store expression and
reference set, install the new back-edges, then evaluate immediately. -/
def setExpression (s : PMState) (paramName : String) (expression : String) : PMState :=
  let dm :=
    match s.references.get paramName with
    | some oldRefs => oldRefs.foldl (removeDependent paramName) s.dependents
    | none => s.dependents
  let refs := extractReferences expression
  let s2 : PMState :=
    { s with
      expressions := s.expressions.set paramName expression
      references := s.references.set paramName refs
      dependents := refs.foldl (addDependent paramName) dm }
  evaluateExpression s2 paramName

/-- The per-reference cleanup of `clearExpression` (`src/unnamed/part_006`
lines 2077-2080): delete the target from the reference's dependent set;
unlike `setExpression`, a set that becomes empty is left in place. -/
def clearDependent (p : String) (dm : SMap (List String)) (ref : String) :
    SMap (List String) :=
  match dm.get ref with
  | some deps => dm.set ref (setErase deps p)
  | none => dm

/-- `clearExpression` (`src/unnamed/part_006` lines 2074-2086): drop the
expression, remove the target from its references' dependent sets (empty
sets are left in place here), and drop the reference set. -/
def clearExpression (s : PMState) (paramName : String) : PMState :=
  let s1 : PMState := { s with expressions := s.expressions.del paramName }
  match s1.references.get paramName with
  | some refs =>
    { s1 with
      dependents := refs.foldl (clearDependent paramName) s1.dependents
      references := s1.references.del paramName }
  | none => s1

/-- `handleValueChange` (`src/unnamed/part_006` lines 2128-2139): re-run
`evaluateExpression` for each dependent of the changed parameter, in set
insertion order; the terminal `dispatchParameterChange` only emits a DOM
event (its listeners store the value elsewhere and never re-enter the
manager), so it has no effect on this state. -/
def handleValueChange (s : PMState) (paramName : String) (_v : JsValue) : PMState :=
  match s.dependents.get paramName with
  | some deps => deps.foldl evaluateExpression s
  | none => s

/-- The expression-system entry points reachable from the UI, for stating
"after any finite sequence of `setExpression`/`clearExpression` calls". -/
inductive Op where
  | setE (paramName expression : String)
  | clearE (paramName : String)

def applyOp (s : PMState) : Op → PMState
  | .setE p e => setExpression s p e
  | .clearE p => clearExpression s p

def runOps (s : PMState) : List Op → PMState
  | [] => s
  | op :: rest => runOps (applyOp s op) rest

end ParameterManager

namespace ParameterManager

/-- Forward soundness of the dependency graph: every member `m` of a
dependent set `dependents[k]` has `k` among its recorded references. -/
def DependentsSound (s : PMState) : Prop :=
  ∀ k ds, s.dependents.get k = some ds →
    ∀ m ∈ ds, ∃ rs, s.references.get m = some rs ∧ k ∈ rs

/-- Backward soundness: every recorded reference `r` of `m` has `m` in
`dependents[r]`. -/
def ReferencesSound (s : PMState) : Prop :=
  ∀ m rs, s.references.get m = some rs →
    ∀ r ∈ rs, ∃ ds, s.dependents.get r = some ds ∧ m ∈ ds

/-- The two maps are mutually inverse. -/
def GraphInverse (s : PMState) : Prop := DependentsSound s ∧ ReferencesSound s

end ParameterManager

/-! ## Theorems

General lemmas first, then one theorem per claim (with witnesses and
counterexamples where required). -/

theorem str_toList_append (a b : String) : (a ++ b).toList = a.toList ++ b.toList := by
  cases a; cases b; rfl

theorem digitChar_isDigit (k : Nat) (h : k < 10) :
    (Char.ofNat (48 + k)).isDigit = true := by
  interval_cases k <;> decide

theorem natToDigitsGo_digits :
    ∀ fuel n acc, (∀ c ∈ acc, c.isDigit = true) →
      ∀ c ∈ natToDigitsGo fuel n acc, c.isDigit = true := by
  intro fuel
  induction fuel with
  | zero =>
    intro n acc hacc c hc
    simp only [natToDigitsGo, List.mem_cons] at hc
    rcases hc with h | h
    · exact h ▸ digitChar_isDigit _ (Nat.mod_lt _ (by omega))
    · exact hacc c h
  | succ fuel ih =>
    intro n acc hacc c hc
    simp only [natToDigitsGo] at hc
    by_cases hn : n < 10
    · simp only [if_pos hn, List.mem_cons] at hc
      rcases hc with h | h
      · exact h ▸ digitChar_isDigit _ hn
      · exact hacc c h
    · simp only [if_neg hn] at hc
      refine ih _ _ ?_ c hc
      intro c' hc'
      rcases List.mem_cons.mp hc' with h | h
      · exact h ▸ digitChar_isDigit _ (Nat.mod_lt _ (by omega))
      · exact hacc c' h

theorem natToDigits_digits (n : Nat) : ∀ c ∈ natToDigits n, c.isDigit = true :=
  natToDigitsGo_digits n n [] (by intro c h; cases h)

theorem natToDigitsGo_len_lt10 :
    ∀ fuel n acc, n < 10 → (natToDigitsGo fuel n acc).length = acc.length + 1 := by
  intro fuel n acc h
  cases fuel with
  | zero => simp [natToDigitsGo]
  | succ fuel => simp [natToDigitsGo, if_pos h]

theorem natToDigitsGo_len_lt100 :
    ∀ fuel n acc, n < 100 → n ≤ fuel →
      (natToDigitsGo fuel n acc).length ≤ acc.length + 2 := by
  intro fuel
  induction fuel with
  | zero =>
    intro n acc _ hf
    have : n = 0 := by omega
    subst this
    simp [natToDigitsGo]
  | succ fuel ih =>
    intro n acc h hf
    by_cases hn : n < 10
    · rw [natToDigitsGo_len_lt10 _ _ _ hn]; omega
    · simp only [natToDigitsGo, if_neg hn]
      by_cases h10 : n / 10 < 10
      · rw [natToDigitsGo_len_lt10 _ _ _ h10]
        simp only [List.length_cons]
        omega
      · exfalso; omega

theorem natToDigitsGo_len_lt1000 :
    ∀ fuel n acc, n < 1000 → n ≤ fuel →
      (natToDigitsGo fuel n acc).length ≤ acc.length + 3 := by
  intro fuel
  induction fuel with
  | zero =>
    intro n acc _ hf
    have : n = 0 := by omega
    subst this
    simp [natToDigitsGo]
  | succ fuel ih =>
    intro n acc h hf
    by_cases hn : n < 10
    · rw [natToDigitsGo_len_lt10 _ _ _ hn]; omega
    · simp only [natToDigitsGo, if_neg hn]
      have h1 : n / 10 < 100 := by omega
      have h2 : n / 10 ≤ fuel := by
        have := Nat.div_lt_self (show 0 < n by omega) (show 1 < 10 by omega)
        omega
      have := natToDigitsGo_len_lt100 fuel (n / 10)
        (Char.ofNat (48 + n % 10) :: acc) h1 h2
      simpa using this

theorem natToDigits_len3 (n : Nat) (h : n < 1000) : (natToDigits n).length ≤ 3 := by
  have := natToDigitsGo_len_lt1000 n n [] h (le_refl n)
  simpa [natToDigits] using this

theorem padThree_len (n : Nat) (h : n < 1000) : (padThree n).length = 3 := by
  have hd := natToDigits_len3 n h
  simp only [padThree, List.length_append, List.length_replicate]
  omega

theorem padThree_digits (n : Nat) : ∀ c ∈ padThree n, c.isDigit = true := by
  intro c hc
  simp only [padThree, List.mem_append, List.mem_replicate] at hc
  rcases hc with ⟨_, h⟩ | h
  · subst h; decide
  · exact natToDigits_digits n c h

theorem dot_not_digit {c : Char} (h : c.isDigit = true) : c ≠ '.' := by
  intro e; subst e; simp at h

theorem splitDotCore_no_dot : ∀ l : List Char, '.' ∉ l → splitDotCore l = (l, []) := by
  intro l
  induction l with
  | nil => intro _; rfl
  | cons c rest ih =>
    intro h
    have hc : c ≠ '.' := fun e => h (e ▸ List.mem_cons_self c rest)
    have hr : '.' ∉ rest := fun m => h (List.mem_cons_of_mem _ m)
    simp [splitDotCore, ih hr, hc]

theorem splitDotCore_append (a b : List Char) (ha : '.' ∉ a) :
    splitDotCore (a ++ '.' :: b) = (a, (splitDotCore b).1 :: (splitDotCore b).2) := by
  induction a with
  | nil => simp [splitDotCore]
  | cons c a' ih =>
    have hc : c ≠ '.' := fun e => ha (e ▸ List.mem_cons_self c a')
    have ha' : '.' ∉ a' := fun m => ha (List.mem_cons_of_mem _ m)
    simp [splitDotCore, ih ha', hc]

theorem splitDot_append (a b : List Char) (ha : '.' ∉ a) (hb : '.' ∉ b) :
    splitDot (a ++ '.' :: b) = [a, b] := by
  simp [splitDot, splitDotCore_append a b ha, splitDotCore_no_dot b hb]

theorem no_dot_of_digits (l : List Char) (h : ∀ c ∈ l, c.isDigit = true) :
    '.' ∉ l := fun m => dot_not_digit (h _ m) rfl

theorem jsToFixed3_toList (q : Q) :
    (jsToFixed3 q).toList =
      ((if q.isNeg then "-" else "" : String).toList ++
        natToDigits ((2000 * q.num.natAbs + q.den) / (2 * q.den) / 1000)) ++
      '.' :: padThree ((2000 * q.num.natAbs + q.den) / (2 * q.den) % 1000) := by
  simp only [jsToFixed3, str_toList_append]
  simp [natToDecimal, natToDigits]

theorem jsToFixed3_shape (q : Q) : hasThreeDecimals (jsToFixed3 q) = true := by
  rw [hasThreeDecimals, jsToFixed3_toList]
  have hm : (2000 * q.num.natAbs + q.den) / (2 * q.den) % 1000 < 1000 :=
    Nat.mod_lt _ (by omega)
  rw [splitDot_append _ _ ?_ ?_]
  · rw [Bool.and_eq_true]
    refine ⟨?_, ?_⟩
    · simp [padThree_len _ hm]
    · rw [List.all_eq_true]
      intro c hc
      exact padThree_digits _ c hc
  · intro hmem
    rcases List.mem_append.mp hmem with h | h
    · by_cases hq : q.isNeg <;> simp [hq] at h
    · exact no_dot_of_digits _ (natToDigits_digits _) h
  · exact no_dot_of_digits _ (padThree_digits _)

theorem intToDecimal_no_dot (i : Int) : hasNoDot (intToDecimal i) = true := by
  simp only [hasNoDot, intToDecimal, decide_eq_true_eq]
  simp only [str_toList_append, List.mem_append]
  rintro (h | h)
  · by_cases hi : i < 0 <;> simp [hi] at h
  · exact no_dot_of_digits _ (natToDigits_digits _) (by simpa [natToDecimal] using h)

open CryEngineExporter ParameterManager

/-- C4: `formatValue` on the colour object `{r:255,g:0,b:0}` yields
`"1.000,0.000,0.000"`, on the integer `5` yields `"5"`, on `5.5` yields
`"5.500"`, and on the vector `[1, 2.5, 0]` yields `"1,2.500,0"`. -/
theorem c4_formatValue_roundtrip :
    formatValue (.rgb (Q.ofNat 255) (Q.ofNat 0) (Q.ofNat 0)) = "1.000,0.000,0.000" ∧
    formatValue (.num (.val (Q.ofNat 5))) = "5" ∧
    formatValue (.num (.val (Q.norm 11 2))) = "5.500" ∧
    formatValue (.vec [.val (Q.ofNat 1), .val (Q.norm 5 2), .val (Q.ofNat 0)])
      = "1,2.500,0" := by
  refine ⟨by decide, by decide, by decide, by decide⟩

/-- C3 counterexample: the claim says every array component — integer or
not — renders with exactly 3 decimal places, but the code renders the
vector `[1, 2.5, 0]` as `"1,2.500,0"`, whose first comma-separated
component `"1"` has no decimal places at all. -/
theorem c3_vector_integer_counterexample :
    formatValue (.vec [.val (Q.ofNat 1), .val (Q.norm 5 2), .val (Q.ofNat 0)])
        = "1,2.500,0" ∧
    (splitComma "1,2.500,0".toList).map (fun cs => (⟨cs⟩ : String))
        = ["1", "2.500", "0"] ∧
    hasThreeDecimals "1" = false := by
  refine ⟨by decide, by decide, by decide⟩

/-- C3 (amended): booleans render as literal `true`/`false`; integer
numbers render without a decimal point; non-integer numbers render with
exactly 3 decimal places; arrays render as the comma-join of their
components, where each component is formatted like a standalone number —
integer components without a decimal point, non-integer components with
exactly 3 decimal places. -/
theorem c3_formatValue_shapes :
    (∀ b : Bool, formatValue (.bool b) = if b then "true" else "false") ∧
    (∀ q : Q, q.isInt = true → hasNoDot (formatValue (.num (.val q))) = true) ∧
    (∀ q : Q, q.isInt = false → hasThreeDecimals (formatValue (.num (.val q))) = true) ∧
    (∀ l : List JNum, formatValue (.vec l) = String.intercalate "," (l.map formatNum)) ∧
    (∀ q : Q, q.isInt = true → hasNoDot (formatNum (.val q)) = true) ∧
    (∀ q : Q, q.isInt = false → hasThreeDecimals (formatNum (.val q)) = true) := by
  refine ⟨fun b => rfl, ?_, ?_, fun l => rfl, ?_, ?_⟩ <;>
    intro q hq <;> simp [formatValue, formatNum, hq] <;>
    first
      | exact intToDecimal_no_dot q.num
      | exact jsToFixed3_shape q

/-- Witness for C3 (amended) at the integers `5` and the non-integer
`11/2`. -/
theorem c3_formatValue_shapes_witness :
    hasNoDot (formatValue (.num (.val (Q.ofNat 5)))) = true ∧
    hasThreeDecimals (formatValue (.num (.val (Q.norm 11 2)))) = true :=
  ⟨c3_formatValue_shapes.2.1 (Q.ofNat 5) (by decide),
   c3_formatValue_shapes.2.2.1 (Q.norm 11 2) (by decide)⟩

/-- C10: every string beginning with `#` is routed through `hexToRgb` and
rendered as three comma-joined channel/255 values, each with exactly 3
decimal places; when the string is not a valid 6-hex-digit colour the
white fallback makes the output `"1.000,1.000,1.000"`. -/
theorem c10_hash_string_rendering (s : String) (h : startsWithHash s = true) :
    formatValue (.str s)
        = rgbToString (hexToRgb s).1 (hexToRgb s).2.1 (hexToRgb s).2.2 ∧
    hasThreeDecimals (jsToFixed3 ((hexToRgb s).1.div (Q.ofNat 255))) = true ∧
    hasThreeDecimals (jsToFixed3 ((hexToRgb s).2.1.div (Q.ofNat 255))) = true ∧
    hasThreeDecimals (jsToFixed3 ((hexToRgb s).2.2.div (Q.ofNat 255))) = true ∧
    (isValidHexColor s = false → formatValue (.str s) = "1.000,1.000,1.000") := by
  have hfmt : formatValue (.str s)
      = rgbToString (hexToRgb s).1 (hexToRgb s).2.1 (hexToRgb s).2.2 := by
    simp [formatValue, h]
  refine ⟨hfmt, jsToFixed3_shape _, jsToFixed3_shape _, jsToFixed3_shape _, ?_⟩
  intro hinv
  have hnone : hexMatch s = none := by
    simpa [isValidHexColor, Option.isSome_iff_exists] using hinv
  rw [hfmt]
  simp only [hexToRgb, hnone, Option.getD_none]
  decide

/-- Witness for C10 at the invalid colour string `"#xyz"`. -/
theorem c10_hash_string_rendering_witness :
    formatValue (.str "#xyz") = "1.000,1.000,1.000" :=
  (c10_hash_string_rendering "#xyz" (by decide)).2.2.2.2 (by decide)

theorem processParam_none {reg : Registry} {x : Bool} {p : String} {v : JsValue}
    (prev : List Attr × List String) (h : reg.getParameter p = none) :
    processParam reg x p v prev = (prev.1, unknownParamWarning p :: prev.2) := by
  unfold processParam
  rw [h]

theorem processParam_some {reg : Registry} {x : Bool} {p : String} {v : JsValue}
    {d : ParamDef} (prev : List Attr × List String) (h : reg.getParameter p = some d) :
    processParam reg x p v prev =
      if !(jsonDeepEq v (coerceDefault d)) || x then
        ({ key := p, name := escapeXML d.name, value := formatValue v } :: prev.1, prev.2)
      else prev := by
  unfold processParam
  rw [h]

theorem genAttrs_cons (reg : Registry) (x : Bool) (q : String) (w : JsValue)
    (tl : List (String × JsValue)) :
    generateParamAttrs reg x ((q, w) :: tl) =
      processParam reg x q w (generateParamAttrs reg x tl) := rfl

theorem genAttrs_key_mem (reg : Registry) (x : Bool) :
    ∀ params (a : Attr), a ∈ (generateParamAttrs reg x params).1 →
      a.key ∈ params.map Prod.fst := by
  intro params
  induction params with
  | nil => intro a ha; simp [generateParamAttrs] at ha
  | cons hd tl ih =>
    obtain ⟨q, w⟩ := hd
    intro a ha
    rw [genAttrs_cons] at ha
    cases hreg : reg.getParameter q with
    | none =>
      rw [processParam_none _ hreg] at ha
      exact List.mem_cons_of_mem _ (ih a ha)
    | some d =>
      rw [processParam_some _ hreg] at ha
      by_cases hc : (!(jsonDeepEq w (coerceDefault d)) || x) = true
      · rw [if_pos hc] at ha
        rcases List.mem_cons.mp ha with h | h
        · subst h; simp
        · exact List.mem_cons_of_mem _ (ih a h)
      · rw [if_neg hc] at ha
        exact List.mem_cons_of_mem _ (ih a ha)

theorem genAttrs_key_resolves (reg : Registry) (x : Bool) :
    ∀ params (a : Attr), a ∈ (generateParamAttrs reg x params).1 →
      ∃ d, reg.getParameter a.key = some d := by
  intro params
  induction params with
  | nil => intro a ha; simp [generateParamAttrs] at ha
  | cons hd tl ih =>
    obtain ⟨q, w⟩ := hd
    intro a ha
    rw [genAttrs_cons] at ha
    cases hreg : reg.getParameter q with
    | none =>
      rw [processParam_none _ hreg] at ha
      exact ih a ha
    | some d =>
      rw [processParam_some _ hreg] at ha
      by_cases hc : (!(jsonDeepEq w (coerceDefault d)) || x) = true
      · rw [if_pos hc] at ha
        rcases List.mem_cons.mp ha with h | h
        · subst h; exact ⟨d, hreg⟩
        · exact ih a h
      · rw [if_neg hc] at ha
        exact ih a ha

theorem genAttrs_exportAll (reg : Registry) (p : String) (v : JsValue) (d : ParamDef) :
    ∀ params, (p, v) ∈ params → reg.getParameter p = some d →
      ∃ a ∈ (generateParamAttrs reg true params).1,
        a.key = p ∧ a.name = escapeXML d.name ∧ a.value = formatValue v := by
  intro params
  induction params with
  | nil => intro h; cases h
  | cons hd tl ih =>
    obtain ⟨q, w⟩ := hd
    intro hmem hd'
    rw [genAttrs_cons]
    rcases List.mem_cons.mp hmem with h | h
    · simp only [Prod.mk.injEq] at h
      obtain ⟨hq, hw⟩ := h
      subst hq; subst hw
      rw [processParam_some _ hd', if_pos (by simp)]
      exact ⟨_, List.mem_cons_self _ _, rfl, rfl, rfl⟩
    · obtain ⟨a, hmem', hprop⟩ := ih h hd'
      cases hreg : reg.getParameter q with
      | none =>
        rw [processParam_none _ hreg]
        exact ⟨a, hmem', hprop⟩
      | some d' =>
        rw [processParam_some _ hreg, if_pos (by simp)]
        exact ⟨a, List.mem_cons_of_mem _ hmem', hprop⟩

theorem genAttrs_diff_iff (reg : Registry) (p : String) (v : JsValue) (d : ParamDef) :
    ∀ params, (params.map Prod.fst).Nodup → (p, v) ∈ params →
      reg.getParameter p = some d →
      ((∃ a ∈ (generateParamAttrs reg false params).1, a.key = p) ↔
        jsonDeepEq v (coerceDefault d) = false) := by
  intro params
  induction params with
  | nil => intro _ h; cases h
  | cons hd tl ih =>
    obtain ⟨q, w⟩ := hd
    intro hnodup hmem hd'
    have hnodup' : (q :: tl.map Prod.fst).Nodup := by simpa using hnodup
    have hnd1 : q ∉ tl.map Prod.fst := (List.nodup_cons.mp hnodup').1
    have hnd2 : (tl.map Prod.fst).Nodup := (List.nodup_cons.mp hnodup').2
    rw [genAttrs_cons]
    rcases List.mem_cons.mp hmem with h | h
    · simp only [Prod.mk.injEq] at h
      obtain ⟨hq, hw⟩ := h
      subst hq; subst hw
      rw [processParam_some _ hd']
      by_cases hdef : jsonDeepEq v (coerceDefault d) = false
      · rw [if_pos (by rw [hdef]; rfl)]
        refine ⟨fun _ => hdef, fun _ => ?_⟩
        exact ⟨_, List.mem_cons_self _ _, rfl⟩
      · have hdef' : jsonDeepEq v (coerceDefault d) = true := by
          simpa using hdef
        rw [if_neg (by rw [hdef']; simp)]
        constructor
        · rintro ⟨a, hmem', hkey⟩
          exfalso
          have := genAttrs_key_mem reg false tl a hmem'
          rw [hkey] at this
          exact hnd1 this
        · intro hc; rw [hc] at hdef'; cases hdef'
    · have hp_tl : p ∈ tl.map Prod.fst := List.mem_map_of_mem Prod.fst h
      have hqp : q ≠ p := fun e => hnd1 (e ▸ hp_tl)
      have hiff := ih hnd2 h hd'
      cases hreg : reg.getParameter q with
      | none =>
        rw [processParam_none _ hreg]
        exact hiff
      | some d' =>
        rw [processParam_some _ hreg]
        by_cases hc : (!(jsonDeepEq w (coerceDefault d')) || false) = true
        · rw [if_pos hc]
          constructor
          · rintro ⟨a, hmem', hkey⟩
            rcases List.mem_cons.mp hmem' with ha | ha
            · exfalso; subst ha; exact hqp hkey
            · exact hiff.mp ⟨a, ha, hkey⟩
          · intro hz
            obtain ⟨a, hmem', hkey⟩ := hiff.mpr hz
            exact ⟨a, List.mem_cons_of_mem _ hmem', hkey⟩
        · rw [if_neg hc]
          exact hiff

/-- C2: with the `exportAllParameters` flag off, an `effect.params` entry
with a schema definition produces an attribute exactly when its current
value differs (under the deep stringify comparison) from the definition's
coerced default; with the flag on, every known entry is emitted with its
escaped internal name and formatted value. -/
theorem c2_diff_against_default (reg : Registry) (exportAll : Bool)
    (params : List (String × JsValue)) (p : String) (v : JsValue) (d : ParamDef)
    (hnodup : (params.map Prod.fst).Nodup)
    (hmem : (p, v) ∈ params) (hd : reg.getParameter p = some d) :
    (exportAll = false →
      ((∃ a ∈ (generateParamAttrs reg exportAll params).1, a.key = p) ↔
        jsonDeepEq v (coerceDefault d) = false)) ∧
    (exportAll = true →
      ∃ a ∈ (generateParamAttrs reg exportAll params).1,
        a.key = p ∧ a.name = escapeXML d.name ∧ a.value = formatValue v) := by
  cases exportAll with
  | false =>
    constructor
    · intro _
      exact genAttrs_diff_iff reg p v d params hnodup hmem hd
    · intro h; cases h
  | true =>
    constructor
    · intro h; cases h
    · intro _
      exact genAttrs_exportAll reg p v d params hmem hd

/-- Witness for C2: a lifetime parameter with schema default `"1"` set to
`2.5` is emitted when the flag is off, and emitted with its name and
formatted value when it is on. -/
theorem c2_diff_against_default_witness :
    (∃ a ∈ (generateParamAttrs
        (loadRegistry [⟨"fParticleLifeTime", "Particle Lifetime", "float", "1", none⟩])
        false
        [("fParticleLifeTime", .num (.val (Q.norm 5 2)))]).1,
      a.key = "fParticleLifeTime") ∧
    (∃ a ∈ (generateParamAttrs
        (loadRegistry [⟨"fParticleLifeTime", "Particle Lifetime", "float", "1", none⟩])
        true
        [("fParticleLifeTime", .num (.val (Q.norm 5 2)))]).1,
      a.key = "fParticleLifeTime" ∧
      a.name = escapeXML "fParticleLifeTime" ∧
      a.value = formatValue (.num (.val (Q.norm 5 2)))) := by
  constructor
  · exact ((c2_diff_against_default
      (loadRegistry [⟨"fParticleLifeTime", "Particle Lifetime", "float", "1", none⟩])
      false [("fParticleLifeTime", .num (.val (Q.norm 5 2)))]
      "fParticleLifeTime" (.num (.val (Q.norm 5 2)))
      ⟨"fParticleLifeTime", "Particle Lifetime", "float", "1", none⟩
      (by decide) (by decide) (by decide)).1 rfl).mpr (by decide)
  · exact (c2_diff_against_default
      (loadRegistry [⟨"fParticleLifeTime", "Particle Lifetime", "float", "1", none⟩])
      true [("fParticleLifeTime", .num (.val (Q.norm 5 2)))]
      "fParticleLifeTime" (.num (.val (Q.norm 5 2)))
      ⟨"fParticleLifeTime", "Particle Lifetime", "float", "1", none⟩
      (by decide) (by decide) (by decide)).2 rfl

theorem genAttrs_warning_mem (reg : Registry) (x : Bool) (p : String) (v : JsValue) :
    ∀ params, (p, v) ∈ params → reg.getParameter p = none →
      unknownParamWarning p ∈ (generateParamAttrs reg x params).2 := by
  intro params
  induction params with
  | nil => intro h; cases h
  | cons hd tl ih =>
    obtain ⟨q, w⟩ := hd
    intro hmem hnone
    rw [genAttrs_cons]
    rcases List.mem_cons.mp hmem with h | h
    · simp only [Prod.mk.injEq] at h
      obtain ⟨hq, hw⟩ := h
      subst hq; subst hw
      rw [processParam_none _ hnone]
      exact List.mem_cons_self _ _
    · have := ih h hnone
      cases hreg : reg.getParameter q with
      | none =>
        rw [processParam_none _ hreg]
        exact List.mem_cons_of_mem _ this
      | some d =>
        rw [processParam_some _ hreg]
        by_cases hc : (!(jsonDeepEq w (coerceDefault d)) || x) = true
        · rw [if_pos hc]; exact this
        · rw [if_neg hc]; exact this

/-- C8: an `effect.params` entry whose name resolves to no definition never
contributes an attribute (no attribute of the params loop originates from
that key) and its warning is logged. -/
theorem c8_unknown_param_skipped (reg : Registry) (exportAll : Bool)
    (params : List (String × JsValue)) (p : String) (v : JsValue)
    (hmem : (p, v) ∈ params) (hnone : reg.getParameter p = none) :
    (∀ a ∈ (generateParamAttrs reg exportAll params).1, a.key ≠ p) ∧
    unknownParamWarning p ∈ (generateParamAttrs reg exportAll params).2 := by
  refine ⟨?_, genAttrs_warning_mem reg exportAll p v params hmem hnone⟩
  intro a ha hkey
  obtain ⟨d, hd⟩ := genAttrs_key_resolves reg exportAll params a ha
  rw [hkey, hnone] at hd
  cases hd

/-- Witness for C8: an unknown parameter entry produces no attribute and
one warning. -/
theorem c8_unknown_param_skipped_witness :
    (∀ a ∈ (generateParamAttrs (loadRegistry []) false
        [("bogusParam", .num (.val (Q.ofNat 7)))]).1,
      a.key ≠ "bogusParam") ∧
    unknownParamWarning "bogusParam" ∈
      (generateParamAttrs (loadRegistry []) false
        [("bogusParam", .num (.val (Q.ofNat 7)))]).2 :=
  c8_unknown_param_skipped (loadRegistry []) false
    [("bogusParam", .num (.val (Q.ofNat 7)))] "bogusParam"
    (.num (.val (Q.ofNat 7))) (by decide) (by decide)

theorem SMap.get_set_self {α : Type} (m : SMap α) (k : String) (v : α) :
    (m.set k v).get k = some v := by
  simp [SMap.get, SMap.set]

theorem SMap.get_set_ne {α : Type} (m : SMap α) {k k' : String} (v : α)
    (h : k' ≠ k) : (m.set k v).get k' = m.get k' := by
  simp [SMap.get, SMap.set, h]

theorem loadFrom_map_not_name :
    ∀ (defs : List ParamDef) (r : Registry) (k : String),
      k ∉ defs.map ParamDef.name →
      (loadRegistryFrom r defs).parameterMap.get k = r.parameterMap.get k := by
  intro defs
  induction defs with
  | nil => intro r k _; rfl
  | cons d' rest ih =>
    intro r k hk
    simp only [List.map_cons, List.mem_cons] at hk
    push_neg at hk
    rw [loadRegistryFrom, ih _ _ hk.2]
    exact SMap.get_set_ne _ _ hk.1

theorem loadFrom_label_not :
    ∀ (defs : List ParamDef) (r : Registry) (k : String),
      k ∉ defs.map ParamDef.label →
      (loadRegistryFrom r defs).parameterByLabel.get k = r.parameterByLabel.get k := by
  intro defs
  induction defs with
  | nil => intro r k _; rfl
  | cons d' rest ih =>
    intro r k hk
    simp only [List.map_cons, List.mem_cons] at hk
    push_neg at hk
    rw [loadRegistryFrom, ih _ _ hk.2]
    exact SMap.get_set_ne _ _ hk.1

theorem aliasKeysOf_cons_none {d' : ParamDef} {rest : List ParamDef}
    (ha : d'.«alias» = none) : aliasKeysOf (d' :: rest) = aliasKeysOf rest := by
  simp [aliasKeysOf, List.filterMap_cons, ha]

theorem aliasKeysOf_cons_empty {d' : ParamDef} {rest : List ParamDef}
    (ha : d'.«alias» = some "") : aliasKeysOf (d' :: rest) = aliasKeysOf rest := by
  simp [aliasKeysOf, List.filterMap_cons, ha]

theorem aliasKeysOf_cons_some {d' : ParamDef} {rest : List ParamDef} {a : String}
    (ha : d'.«alias» = some a) (hne : a ≠ "") :
    aliasKeysOf (d' :: rest) = a :: aliasKeysOf rest := by
  simp [aliasKeysOf, List.filterMap_cons, ha, hne]

theorem loadFrom_alias_not :
    ∀ (defs : List ParamDef) (r : Registry) (k : String),
      k ∉ aliasKeysOf defs →
      (loadRegistryFrom r defs).aliases.get k = r.aliases.get k := by
  intro defs
  induction defs with
  | nil => intro r k _; rfl
  | cons d' rest ih =>
    intro r k hk
    rw [loadRegistryFrom]
    cases ha : d'.«alias» with
    | none =>
      rw [aliasKeysOf_cons_none ha] at hk
      rw [ih _ _ hk]
      simp [Registry.insertDef, ha]
    | some a =>
      by_cases hae : a = ""
      · subst hae
        rw [aliasKeysOf_cons_empty ha] at hk
        rw [ih _ _ hk]
        simp [Registry.insertDef, ha]
      · rw [aliasKeysOf_cons_some ha hae, List.mem_cons] at hk
        push_neg at hk
        rw [ih _ _ hk.2]
        simp only [Registry.insertDef, ha, if_neg hae]
        exact SMap.get_set_ne _ _ hk.1

theorem loadFrom_map_mem :
    ∀ (defs : List ParamDef) (r : Registry) (d : ParamDef),
      d ∈ defs → (defs.map ParamDef.name).Nodup →
      (loadRegistryFrom r defs).parameterMap.get d.name = some d := by
  intro defs
  induction defs with
  | nil => intro r d h; cases h
  | cons d' rest ih =>
    intro r d hd hnodup
    rw [List.map_cons] at hnodup
    have hnodup' := List.nodup_cons.mp hnodup
    rcases List.mem_cons.mp hd with h | h
    · subst h
      rw [loadRegistryFrom, loadFrom_map_not_name rest _ _ hnodup'.1]
      simp [Registry.insertDef, SMap.get_set_self]
    · rw [loadRegistryFrom]
      exact ih _ d h hnodup'.2

theorem loadFrom_label_mem :
    ∀ (defs : List ParamDef) (r : Registry) (d : ParamDef),
      d ∈ defs → (defs.map ParamDef.label).Nodup →
      (loadRegistryFrom r defs).parameterByLabel.get d.label = some d := by
  intro defs
  induction defs with
  | nil => intro r d h; cases h
  | cons d' rest ih =>
    intro r d hd hnodup
    rw [List.map_cons] at hnodup
    have hnodup' := List.nodup_cons.mp hnodup
    rcases List.mem_cons.mp hd with h | h
    · subst h
      rw [loadRegistryFrom, loadFrom_label_not rest _ _ hnodup'.1]
      simp [Registry.insertDef, SMap.get_set_self]
    · rw [loadRegistryFrom]
      exact ih _ d h hnodup'.2

/-- C9 counterexample: the claim's precondition only constrains labels, but
alias resolution runs first, so a definition whose alias equals another
definition's internal name shadows that name: with `A`/`La` and `B`/`Lb`
(the latter carrying alias `"A"`), labels are unique and collide with no
name or alias, yet `getParameter "A"` returns the `B` definition, not the
`A` definition. -/
theorem c9_alias_shadowing_counterexample :
    (loadRegistry [⟨"A", "La", "float", "0", none⟩,
                   ⟨"B", "Lb", "float", "0", some "A"⟩]).getParameter "A"
      = some ⟨"B", "Lb", "float", "0", some "A"⟩ ∧
    (⟨"B", "Lb", "float", "0", some "A"⟩ : ParamDef) ≠ ⟨"A", "La", "float", "0", none⟩ ∧
    (["La", "Lb"] : List String).Nodup ∧
    (∀ lbl ∈ (["La", "Lb"] : List String),
      lbl ∉ (["A", "B"] : List String) ∧
        lbl ∉ aliasKeysOf [⟨"A", "La", "float", "0", none⟩,
                           ⟨"B", "Lb", "float", "0", some "A"⟩]) := by
  refine ⟨by decide, by decide, by decide, by decide⟩

/-- C9 (amended): when, in addition to the claim's label conditions,
internal names are unique and no alias key collides with an internal
name, every loaded definition is found both under its name and under its
label, and unknown keys (no name, label, or alias) resolve to absent. -/
theorem c9_registry_lookup (defs : List ParamDef) (d : ParamDef) (hmem : d ∈ defs)
    (hnames : (defs.map ParamDef.name).Nodup)
    (hlabels : (defs.map ParamDef.label).Nodup)
    (hlblname : ∀ d1 ∈ defs, d1.label ∉ defs.map ParamDef.name)
    (hlblalias : ∀ d1 ∈ defs, d1.label ∉ aliasKeysOf defs)
    (haliasname : ∀ d1 ∈ defs, d1.name ∉ aliasKeysOf defs) :
    (loadRegistry defs).getParameter d.name = some d ∧
    (loadRegistry defs).getParameter d.label = some d ∧
    (∀ k, k ∉ defs.map ParamDef.name → k ∉ defs.map ParamDef.label →
      k ∉ aliasKeysOf defs → (loadRegistry defs).getParameter k = none) := by
  have hempty_alias : ∀ k, k ∉ aliasKeysOf defs →
      (loadRegistry defs).aliases.get k = none := by
    intro k hk
    rw [loadRegistry, loadFrom_alias_not defs _ _ hk]
    rfl
  have hempty_map : ∀ k, k ∉ defs.map ParamDef.name →
      (loadRegistry defs).parameterMap.get k = none := by
    intro k hk
    rw [loadRegistry, loadFrom_map_not_name defs _ _ hk]
    rfl
  have hempty_label : ∀ k, k ∉ defs.map ParamDef.label →
      (loadRegistry defs).parameterByLabel.get k = none := by
    intro k hk
    rw [loadRegistry, loadFrom_label_not defs _ _ hk]
    rfl
  refine ⟨?_, ?_, ?_⟩
  · have h1 : (loadRegistry defs).aliases.get d.name = none :=
      hempty_alias _ (haliasname d hmem)
    have h2 : (loadRegistry defs).parameterMap.get d.name = some d :=
      loadFrom_map_mem defs _ d hmem hnames
    simp [Registry.getParameter, h1, h2]
  · have h1 : (loadRegistry defs).aliases.get d.label = none :=
      hempty_alias _ (hlblalias d hmem)
    have h2 : (loadRegistry defs).parameterMap.get d.label = none :=
      hempty_map _ (hlblname d hmem)
    have h3 : (loadRegistry defs).parameterByLabel.get d.label = some d :=
      loadFrom_label_mem defs _ d hmem hlabels
    simp [Registry.getParameter, h1, h2, h3]
  · intro k hk1 hk2 hk3
    simp [Registry.getParameter, hempty_alias k hk3, hempty_map k hk1,
      hempty_label k hk2]

/-- Witness for C9 (amended) on a two-definition registry with one alias:
lookup by name, by label, and an unknown key. -/
theorem c9_registry_lookup_witness :
    (loadRegistry [⟨"vEmissionSize", "Emission Size", "vec3", "1,1,1", some "EmissionSize"⟩,
                   ⟨"fAlpha", "Alpha", "float", "1", none⟩]).getParameter "vEmissionSize"
      = some ⟨"vEmissionSize", "Emission Size", "vec3", "1,1,1", some "EmissionSize"⟩ ∧
    (loadRegistry [⟨"vEmissionSize", "Emission Size", "vec3", "1,1,1", some "EmissionSize"⟩,
                   ⟨"fAlpha", "Alpha", "float", "1", none⟩]).getParameter "Emission Size"
      = some ⟨"vEmissionSize", "Emission Size", "vec3", "1,1,1", some "EmissionSize"⟩ ∧
    (loadRegistry [⟨"vEmissionSize", "Emission Size", "vec3", "1,1,1", some "EmissionSize"⟩,
                   ⟨"fAlpha", "Alpha", "float", "1", none⟩]).getParameter "fNoSuchParam"
      = none := by
  have h := c9_registry_lookup
    [⟨"vEmissionSize", "Emission Size", "vec3", "1,1,1", some "EmissionSize"⟩,
     ⟨"fAlpha", "Alpha", "float", "1", none⟩]
    ⟨"vEmissionSize", "Emission Size", "vec3", "1,1,1", some "EmissionSize"⟩
    (by decide) (by decide) (by decide) (by decide) (by decide) (by decide)
  exact ⟨h.1, h.2.1, h.2.2 "fNoSuchParam" (by decide) (by decide) (by decide)⟩

/-- C6: with `A = 3`, `setExpression("B", "${A} * 2")` evaluates `B` to
`6`; after `A` is changed to `10`, `handleValueChange("A", 10)`
re-evaluates the dependent `B` to `20`. -/
theorem c6_expression_propagation :
    (let s0 := pmInit fun x =>
      if x = "A" then some (.num (.val (Q.ofNat 3)))
      else if x = "B" then some (.num (.val (Q.ofNat 0)))
      else none
     let s1 := setExpression s0 "B" "$\x7bA\x7d * 2"
     let s2 : PMState := { s1 with values := s1.values.set "A" (.num (.val (Q.ofNat 10))) }
     s1.values.get "B" = some (.num (.val (Q.ofNat 6))) ∧
       (handleValueChange s2 "A" (.num (.val (Q.ofNat 10)))).values.get "B"
         = some (.num (.val (Q.ofNat 20)))) := by
  refine ⟨by decide, by decide⟩

/-- C1 (behaviour at the claim's failing input): after
`setExpression("A", "${B}")` and `setExpression("B", "${A}")` on initial
values `A = 1`, `B = 2`, the reference cycle is installed silently and
each assignment evaluates once against the current snapshot (`A` becomes
`2`, then `B` becomes `2`); the operations are total — nothing hangs or
overflows — and no error of any kind is raised, because the source has no
cycle detection and no `CyclicExpressionError` exists anywhere in it. -/
theorem c1_cycle_installed_without_error :
    (let s0 := pmInit fun x =>
      if x = "A" then some (.num (.val (Q.ofNat 1)))
      else if x = "B" then some (.num (.val (Q.ofNat 2)))
      else none
     let s2 := setExpression (setExpression s0 "A" "$\x7bB\x7d") "B" "$\x7bA\x7d"
     s2.references.get "A" = some ["B"] ∧
       s2.references.get "B" = some ["A"] ∧
       s2.dependents.get "A" = some ["B"] ∧
       s2.dependents.get "B" = some ["A"] ∧
       s2.values.get "A" = some (.num (.val (Q.ofNat 2))) ∧
       s2.values.get "B" = some (.num (.val (Q.ofNat 2)))) := by
  refine ⟨by decide, by decide, by decide, by decide, by decide, by decide⟩

theorem takeWhile_append_last {p : Char → Bool} :
    ∀ (l : List Char) (c : Char), (∀ x ∈ l, p x = true) → p c = false →
      (l ++ [c]).takeWhile p = l ∧ (l ++ [c]).dropWhile p = [c] := by
  intro l
  induction l with
  | nil =>
    intro c _ hc
    simp [List.takeWhile, List.dropWhile, hc]
  | cons x t ih =>
    intro c hl hc
    have hx : p x = true := hl x (List.mem_cons_self x t)
    have ht : ∀ y ∈ t, p y = true := fun y hy => hl y (List.mem_cons_of_mem _ hy)
    have := ih c ht hc
    simp [List.takeWhile, List.dropWhile, hx, this.1, this.2]

theorem substDollar_nil (vals : SMap JsValue) :
    ∀ fuel, substDollar vals fuel [] = [] := by
  intro fuel
  cases fuel <;> rfl

theorem substituteRefs_missing_token (vals : SMap JsValue) (nm : List Char)
    (h1 : nm ≠ []) (h2 : '\x7d' ∉ nm) (h3 : vals.get ⟨trimChars nm⟩ = none) :
    substituteRefs vals ⟨'$' :: '\x7b' :: (nm ++ ['\x7d'])⟩ = "0" := by
  have htk := takeWhile_append_last (p := fun c => c ≠ '\x7d') nm '\x7d'
    (fun x hx => by
      simp only [ne_eq, decide_eq_true_eq]
      intro e; exact h2 (e ▸ hx)) (by simp)
  have hne : nm.isEmpty = false := by
    cases nm with
    | nil => exact absurd rfl h1
    | cons c t => rfl
  have hrepl : refReplacement vals nm = "0" := by
    simp [refReplacement, h3]
  have hstep : substDollar vals (nm.length + 2 + 1) ('$' :: '\x7b' :: (nm ++ ['\x7d'])) = ['0'] := by
    rw [substDollar]
    rw [htk.1, htk.2, hne]
    simp only [Bool.false_eq_true, if_false, hrepl, substDollar_nil]
    rfl
  have hlen : ('$' :: '\x7b' :: (nm ++ ['\x7d'])).length = nm.length + 2 + 1 := by
    simp
  unfold substituteRefs
  have hcs : (String.mk ('$' :: '\x7b' :: (nm ++ ['\x7d']))).toList
      = '$' :: '\x7b' :: (nm ++ ['\x7d']) := rfl
  rw [hcs, hlen, hstep]
  rfl

theorem evaluateExpression_failure (s : PMState) (p e : String)
    (hexp : s.expressions.get p = some e)
    (hfail : evalArith (substituteRefs s.values e) = none) :
    evaluateExpression s p = s := by
  unfold evaluateExpression
  rw [hexp]
  simp only [hfail]

/-- C7: when the (substituted) expression fails to evaluate, the target
parameter and the whole manager state are left unchanged (the exception
is caught and only logged); and a reference token whose trimmed name is
missing from the value snapshot is substituted by `0`. -/
theorem c7_eval_failure_and_missing_refs (s : PMState) (p e : String)
    (hexp : s.expressions.get p = some e) :
    (evalArith (substituteRefs s.values e) = none → evaluateExpression s p = s) ∧
    (∀ nm : List Char, nm ≠ [] → '\x7d' ∉ nm →
      s.values.get ⟨trimChars nm⟩ = none →
      substituteRefs s.values ⟨'$' :: '\x7b' :: (nm ++ ['\x7d'])⟩ = "0") := by
  constructor
  · intro hfail
    exact evaluateExpression_failure s p e hexp hfail
  · intro nm h1 h2 h3
    exact substituteRefs_missing_token s.values nm h1 h2 h3

/-- Witness for C7: a manager whose `B` carries the malformed expression
`"1 +"` is unchanged by evaluation, and the missing reference `C`
substitutes as `0`. -/
theorem c7_eval_failure_and_missing_refs_witness :
    (evaluateExpression
        { values := fun _ => none
          expressions := fun x => if x = "B" then some "1 +" else none
          references := SMap.empty
          dependents := SMap.empty } "B"
      = { values := fun _ => none
          expressions := fun x => if x = "B" then some "1 +" else none
          references := SMap.empty
          dependents := SMap.empty }) ∧
    substituteRefs (fun _ => none) ⟨'$' :: '\x7b' :: ("C".toList ++ ['\x7d'])⟩ = "0" :=
  ⟨(c7_eval_failure_and_missing_refs
      { values := fun _ => none
        expressions := fun x => if x = "B" then some "1 +" else none
        references := SMap.empty
        dependents := SMap.empty } "B" "1 +" rfl).1 (by decide),
   (c7_eval_failure_and_missing_refs
      { values := fun _ => none
        expressions := fun x => if x = "B" then some "1 +" else none
        references := SMap.empty
        dependents := SMap.empty } "B" "1 +" rfl).2 "C".toList (by decide) (by decide) rfl⟩

theorem SMap.get_del_self {α : Type} (m : SMap α) (k : String) :
    (m.del k).get k = none := by
  simp [SMap.get, SMap.del]

theorem SMap.get_del_ne {α : Type} (m : SMap α) {k k' : String} (h : k' ≠ k) :
    (m.del k).get k' = m.get k' := by
  simp [SMap.get, SMap.del, h]

theorem SMap.get_empty {α : Type} (k : String) : (SMap.empty (α := α)).get k = none := rfl

theorem setAdd_mem_self (l : List String) (x : String) : x ∈ setAdd l x := by
  unfold setAdd
  by_cases h : x ∈ l
  · rw [if_pos h]; exact h
  · rw [if_neg h]; simp

theorem setAdd_mem_of_mem (l : List String) (x y : String) (h : y ∈ l) :
    y ∈ setAdd l x := by
  unfold setAdd
  by_cases hx : x ∈ l
  · rw [if_pos hx]; exact h
  · rw [if_neg hx]; simp [h]

theorem setAdd_mem_cases (l : List String) (x y : String) (h : y ∈ setAdd l x) :
    y = x ∨ y ∈ l := by
  unfold setAdd at h
  by_cases hx : x ∈ l
  · rw [if_pos hx] at h; exact Or.inr h
  · rw [if_neg hx] at h
    rcases List.mem_append.mp h with h | h
    · exact Or.inr h
    · simp at h; exact Or.inl h

theorem setErase_not_mem_self (l : List String) (x : String) : x ∉ setErase l x := by
  unfold setErase
  intro h
  have := (List.mem_filter.mp h).2
  simp at this

theorem setErase_mem_of_mem (l : List String) (x y : String) (hy : y ≠ x) (h : y ∈ l) :
    y ∈ setErase l x := by
  unfold setErase
  exact List.mem_filter.mpr ⟨h, by simpa using hy⟩

theorem setErase_subset (l : List String) (x y : String) (h : y ∈ setErase l x) : y ∈ l :=
  (List.mem_filter.mp h).1

theorem setErase_ne_nil_of_mem (l : List String) (x y : String) (hy : y ≠ x) (h : y ∈ l) :
    (setErase l x).length ≠ 0 := by
  have := setErase_mem_of_mem l x y hy h
  intro hlen
  rw [List.length_eq_zero] at hlen
  rw [hlen] at this
  cases this

/-! #### Pointwise and fold lemmas for `removeDependent` -/

theorem removeDependent_eq_none {p : String} {dm : SMap (List String)} {r : String}
    (h : dm.get r = none) : removeDependent p dm r = dm := by
  unfold removeDependent
  rw [h]

theorem removeDependent_eq_some {p : String} {dm : SMap (List String)} {r : String}
    {deps : List String} (h : dm.get r = some deps) :
    removeDependent p dm r =
      if (setErase deps p).length = 0 then dm.del r
      else dm.set r (setErase deps p) := by
  unfold removeDependent
  rw [h]

theorem removeDependent_get_ne (p : String) (dm : SMap (List String)) (r k : String)
    (h : k ≠ r) : (removeDependent p dm r).get k = dm.get k := by
  cases hg : dm.get r with
  | none => rw [removeDependent_eq_none hg]
  | some deps =>
    rw [removeDependent_eq_some hg]
    by_cases hl : (setErase deps p).length = 0
    · rw [if_pos hl]; exact SMap.get_del_ne _ h
    · rw [if_neg hl]; exact SMap.get_set_ne _ _ h

theorem removeDependent_removed (p : String) (dm : SMap (List String)) (r : String) :
    ∀ ds, (removeDependent p dm r).get r = some ds → p ∉ ds := by
  intro ds hds
  cases hg : dm.get r with
  | none =>
    rw [removeDependent_eq_none hg, hg] at hds
    cases hds
  | some deps =>
    rw [removeDependent_eq_some hg] at hds
    by_cases hl : (setErase deps p).length = 0
    · rw [if_pos hl, SMap.get_del_self] at hds
      cases hds
    · rw [if_neg hl, SMap.get_set_self] at hds
      cases hds
      exact setErase_not_mem_self deps p

theorem removeDependent_preserves_removed (p : String) (dm : SMap (List String))
    (r k : String) (h : ∀ ds, dm.get k = some ds → p ∉ ds) :
    ∀ ds, (removeDependent p dm r).get k = some ds → p ∉ ds := by
  by_cases hk : k = r
  · subst hk; exact removeDependent_removed p dm k
  · intro ds hds
    rw [removeDependent_get_ne p dm r k hk] at hds
    exact h ds hds

theorem foldl_removeDependent_get_notmem (p : String) :
    ∀ (refs : List String) (dm : SMap (List String)) (k : String), k ∉ refs →
      (refs.foldl (removeDependent p) dm).get k = dm.get k := by
  intro refs
  induction refs with
  | nil => intro dm k _; rfl
  | cons r rest ih =>
    intro dm k hk
    rw [List.mem_cons] at hk
    push_neg at hk
    rw [List.foldl_cons, ih _ _ hk.2]
    exact removeDependent_get_ne p dm r k hk.1

theorem foldl_removeDependent_preserves_removed (p : String) :
    ∀ (refs : List String) (dm : SMap (List String)) (k : String),
      (∀ ds, dm.get k = some ds → p ∉ ds) →
      ∀ ds, (refs.foldl (removeDependent p) dm).get k = some ds → p ∉ ds := by
  intro refs
  induction refs with
  | nil => intro dm k h; exact h
  | cons r rest ih =>
    intro dm k h
    rw [List.foldl_cons]
    exact ih _ _ (removeDependent_preserves_removed p dm r k h)

theorem foldl_removeDependent_removed (p : String) :
    ∀ (refs : List String) (dm : SMap (List String)) (k : String), k ∈ refs →
      ∀ ds, (refs.foldl (removeDependent p) dm).get k = some ds → p ∉ ds := by
  intro refs
  induction refs with
  | nil => intro dm k h; cases h
  | cons r rest ih =>
    intro dm k hk
    rw [List.foldl_cons]
    by_cases hmem : k ∈ rest
    · exact ih _ _ hmem
    · rcases List.mem_cons.mp hk with h | h
      · subst h
        exact foldl_removeDependent_preserves_removed p rest _ k
          (removeDependent_removed p dm k)
      · exact absurd h hmem

theorem removeDependent_keep (p : String) (dm : SMap (List String)) (r k m : String)
    (hm : m ≠ p) (h : ∃ ds, dm.get k = some ds ∧ m ∈ ds) :
    ∃ ds', (removeDependent p dm r).get k = some ds' ∧ m ∈ ds' := by
  obtain ⟨ds, hg, hmem⟩ := h
  by_cases hk : k = r
  · subst hk
    rw [removeDependent_eq_some hg]
    have hl : (setErase ds p).length ≠ 0 := setErase_ne_nil_of_mem ds p m hm hmem
    rw [if_neg hl]
    exact ⟨setErase ds p, SMap.get_set_self _ _ _, setErase_mem_of_mem ds p m hm hmem⟩
  · rw [removeDependent_get_ne p dm r k hk]
    exact ⟨ds, hg, hmem⟩

theorem foldl_removeDependent_keep (p : String) :
    ∀ (refs : List String) (dm : SMap (List String)) (k m : String), m ≠ p →
      (∃ ds, dm.get k = some ds ∧ m ∈ ds) →
      ∃ ds', (refs.foldl (removeDependent p) dm).get k = some ds' ∧ m ∈ ds' := by
  intro refs
  induction refs with
  | nil => intro dm k m _ h; exact h
  | cons r rest ih =>
    intro dm k m hm h
    rw [List.foldl_cons]
    exact ih _ _ _ hm (removeDependent_keep p dm r k m hm h)

theorem removeDependent_origin (p : String) (dm : SMap (List String)) (r k : String)
    (ds' : List String) (h : (removeDependent p dm r).get k = some ds') :
    ∀ m ∈ ds', ∃ ds, dm.get k = some ds ∧ m ∈ ds := by
  intro m hm
  by_cases hk : k = r
  · subst hk
    cases hg : dm.get k with
    | none =>
      rw [removeDependent_eq_none hg, hg] at h
      cases h
    | some deps =>
      rw [removeDependent_eq_some hg] at h
      by_cases hl : (setErase deps p).length = 0
      · rw [if_pos hl, SMap.get_del_self] at h; cases h
      · rw [if_neg hl, SMap.get_set_self] at h
        cases h
        exact ⟨deps, rfl, setErase_subset deps p m hm⟩
  · rw [removeDependent_get_ne p dm r k hk] at h
    exact ⟨ds', h, hm⟩

theorem foldl_removeDependent_origin (p : String) :
    ∀ (refs : List String) (dm : SMap (List String)) (k : String) (ds' : List String),
      (refs.foldl (removeDependent p) dm).get k = some ds' →
      ∀ m ∈ ds', ∃ ds, dm.get k = some ds ∧ m ∈ ds := by
  intro refs
  induction refs with
  | nil => intro dm k ds' h m hm; exact ⟨ds', h, hm⟩
  | cons r rest ih =>
    intro dm k ds' h m hm
    rw [List.foldl_cons] at h
    obtain ⟨ds1, hg1, hm1⟩ := ih _ _ _ h m hm
    exact removeDependent_origin p dm r k ds1 hg1 m hm1

/-! #### Pointwise and fold lemmas for `addDependent` -/

theorem addDependent_get_ne (p : String) (dm : SMap (List String)) (r k : String)
    (h : k ≠ r) : (addDependent p dm r).get k = dm.get k := by
  unfold addDependent
  exact SMap.get_set_ne _ _ h

theorem addDependent_added (p : String) (dm : SMap (List String)) (r : String) :
    ∃ ds, (addDependent p dm r).get r = some ds ∧ p ∈ ds := by
  unfold addDependent
  exact ⟨_, SMap.get_set_self _ _ _, setAdd_mem_self _ p⟩

theorem addDependent_preserves_added (p : String) (dm : SMap (List String))
    (r k : String) (h : ∃ ds, dm.get k = some ds ∧ p ∈ ds) :
    ∃ ds, (addDependent p dm r).get k = some ds ∧ p ∈ ds := by
  by_cases hk : k = r
  · subst hk; exact addDependent_added p dm k
  · rw [addDependent_get_ne p dm r k hk]; exact h

theorem foldl_addDependent_get_notmem (p : String) :
    ∀ (refs : List String) (dm : SMap (List String)) (k : String), k ∉ refs →
      (refs.foldl (addDependent p) dm).get k = dm.get k := by
  intro refs
  induction refs with
  | nil => intro dm k _; rfl
  | cons r rest ih =>
    intro dm k hk
    rw [List.mem_cons] at hk
    push_neg at hk
    rw [List.foldl_cons, ih _ _ hk.2]
    exact addDependent_get_ne p dm r k hk.1

theorem foldl_addDependent_preserves_added (p : String) :
    ∀ (refs : List String) (dm : SMap (List String)) (k : String),
      (∃ ds, dm.get k = some ds ∧ p ∈ ds) →
      ∃ ds, (refs.foldl (addDependent p) dm).get k = some ds ∧ p ∈ ds := by
  intro refs
  induction refs with
  | nil => intro dm k h; exact h
  | cons r rest ih =>
    intro dm k h
    rw [List.foldl_cons]
    exact ih _ _ (addDependent_preserves_added p dm r k h)

theorem foldl_addDependent_added (p : String) :
    ∀ (refs : List String) (dm : SMap (List String)) (k : String), k ∈ refs →
      ∃ ds, (refs.foldl (addDependent p) dm).get k = some ds ∧ p ∈ ds := by
  intro refs
  induction refs with
  | nil => intro dm k h; cases h
  | cons r rest ih =>
    intro dm k hk
    rw [List.foldl_cons]
    by_cases hmem : k ∈ rest
    · exact ih _ _ hmem
    · rcases List.mem_cons.mp hk with h | h
      · subst h
        exact foldl_addDependent_preserves_added p rest _ k
          (addDependent_added p dm k)
      · exact absurd h hmem

theorem addDependent_origin (p : String) (dm : SMap (List String)) (r k : String)
    (ds' : List String) (h : (addDependent p dm r).get k = some ds') :
    ∀ m ∈ ds', m = p ∨ ∃ ds, dm.get k = some ds ∧ m ∈ ds := by
  intro m hm
  by_cases hk : k = r
  · subst hk
    unfold addDependent at h
    rw [SMap.get_set_self] at h
    cases h
    rcases setAdd_mem_cases _ _ _ hm with h | h
    · exact Or.inl h
    · cases hg : dm.get k with
      | none => rw [hg] at h; cases h
      | some deps =>
        rw [hg] at h
        exact Or.inr ⟨deps, rfl, h⟩
  · rw [addDependent_get_ne p dm r k hk] at h
    exact Or.inr ⟨ds', h, hm⟩

theorem foldl_addDependent_origin (p : String) :
    ∀ (refs : List String) (dm : SMap (List String)) (k : String) (ds' : List String),
      (refs.foldl (addDependent p) dm).get k = some ds' →
      ∀ m ∈ ds', m = p ∨ ∃ ds, dm.get k = some ds ∧ m ∈ ds := by
  intro refs
  induction refs with
  | nil => intro dm k ds' h m hm; exact Or.inr ⟨ds', h, hm⟩
  | cons r rest ih =>
    intro dm k ds' h m hm
    rw [List.foldl_cons] at h
    rcases ih _ _ _ h m hm with h1 | ⟨ds1, hg1, hm1⟩
    · exact Or.inl h1
    · exact addDependent_origin p dm r k ds1 hg1 m hm1

theorem addDependent_keep (p : String) (dm : SMap (List String)) (r k m : String)
    (h : ∃ ds, dm.get k = some ds ∧ m ∈ ds) :
    ∃ ds', (addDependent p dm r).get k = some ds' ∧ m ∈ ds' := by
  obtain ⟨ds, hg, hmem⟩ := h
  by_cases hk : k = r
  · subst hk
    unfold addDependent
    rw [SMap.get_set_self]
    refine ⟨_, rfl, ?_⟩
    rw [hg]
    exact setAdd_mem_of_mem _ _ _ hmem
  · rw [addDependent_get_ne p dm r k hk]
    exact ⟨ds, hg, hmem⟩

theorem foldl_addDependent_keep (p : String) :
    ∀ (refs : List String) (dm : SMap (List String)) (k m : String),
      (∃ ds, dm.get k = some ds ∧ m ∈ ds) →
      ∃ ds', (refs.foldl (addDependent p) dm).get k = some ds' ∧ m ∈ ds' := by
  intro refs
  induction refs with
  | nil => intro dm k m h; exact h
  | cons r rest ih =>
    intro dm k m h
    rw [List.foldl_cons]
    exact ih _ _ _ (addDependent_keep p dm r k m h)

/-! #### Pointwise and fold lemmas for `clearDependent` -/

theorem clearDependent_eq_none {p : String} {dm : SMap (List String)} {r : String}
    (h : dm.get r = none) : clearDependent p dm r = dm := by
  unfold clearDependent
  rw [h]

theorem clearDependent_eq_some {p : String} {dm : SMap (List String)} {r : String}
    {deps : List String} (h : dm.get r = some deps) :
    clearDependent p dm r = dm.set r (setErase deps p) := by
  unfold clearDependent
  rw [h]

theorem clearDependent_get_ne (p : String) (dm : SMap (List String)) (r k : String)
    (h : k ≠ r) : (clearDependent p dm r).get k = dm.get k := by
  cases hg : dm.get r with
  | none => rw [clearDependent_eq_none hg]
  | some deps =>
    rw [clearDependent_eq_some hg]
    exact SMap.get_set_ne _ _ h

theorem clearDependent_removed (p : String) (dm : SMap (List String)) (r : String) :
    ∀ ds, (clearDependent p dm r).get r = some ds → p ∉ ds := by
  intro ds hds
  cases hg : dm.get r with
  | none =>
    rw [clearDependent_eq_none hg, hg] at hds
    cases hds
  | some deps =>
    rw [clearDependent_eq_some hg, SMap.get_set_self] at hds
    cases hds
    exact setErase_not_mem_self deps p

theorem clearDependent_preserves_removed (p : String) (dm : SMap (List String))
    (r k : String) (h : ∀ ds, dm.get k = some ds → p ∉ ds) :
    ∀ ds, (clearDependent p dm r).get k = some ds → p ∉ ds := by
  by_cases hk : k = r
  · subst hk; exact clearDependent_removed p dm k
  · intro ds hds
    rw [clearDependent_get_ne p dm r k hk] at hds
    exact h ds hds

theorem foldl_clearDependent_preserves_removed (p : String) :
    ∀ (refs : List String) (dm : SMap (List String)) (k : String),
      (∀ ds, dm.get k = some ds → p ∉ ds) →
      ∀ ds, (refs.foldl (clearDependent p) dm).get k = some ds → p ∉ ds := by
  intro refs
  induction refs with
  | nil => intro dm k h; exact h
  | cons r rest ih =>
    intro dm k h
    rw [List.foldl_cons]
    exact ih _ _ (clearDependent_preserves_removed p dm r k h)

theorem foldl_clearDependent_removed (p : String) :
    ∀ (refs : List String) (dm : SMap (List String)) (k : String), k ∈ refs →
      ∀ ds, (refs.foldl (clearDependent p) dm).get k = some ds → p ∉ ds := by
  intro refs
  induction refs with
  | nil => intro dm k h; cases h
  | cons r rest ih =>
    intro dm k hk
    rw [List.foldl_cons]
    by_cases hmem : k ∈ rest
    · exact ih _ _ hmem
    · rcases List.mem_cons.mp hk with h | h
      · subst h
        exact foldl_clearDependent_preserves_removed p rest _ k
          (clearDependent_removed p dm k)
      · exact absurd h hmem

theorem clearDependent_keep (p : String) (dm : SMap (List String)) (r k m : String)
    (hm : m ≠ p) (h : ∃ ds, dm.get k = some ds ∧ m ∈ ds) :
    ∃ ds', (clearDependent p dm r).get k = some ds' ∧ m ∈ ds' := by
  obtain ⟨ds, hg, hmem⟩ := h
  by_cases hk : k = r
  · subst hk
    rw [clearDependent_eq_some hg]
    exact ⟨setErase ds p, SMap.get_set_self _ _ _, setErase_mem_of_mem ds p m hm hmem⟩
  · rw [clearDependent_get_ne p dm r k hk]
    exact ⟨ds, hg, hmem⟩

theorem foldl_clearDependent_keep (p : String) :
    ∀ (refs : List String) (dm : SMap (List String)) (k m : String), m ≠ p →
      (∃ ds, dm.get k = some ds ∧ m ∈ ds) →
      ∃ ds', (refs.foldl (clearDependent p) dm).get k = some ds' ∧ m ∈ ds' := by
  intro refs
  induction refs with
  | nil => intro dm k m _ h; exact h
  | cons r rest ih =>
    intro dm k m hm h
    rw [List.foldl_cons]
    exact ih _ _ _ hm (clearDependent_keep p dm r k m hm h)

theorem clearDependent_origin (p : String) (dm : SMap (List String)) (r k : String)
    (ds' : List String) (h : (clearDependent p dm r).get k = some ds') :
    ∀ m ∈ ds', ∃ ds, dm.get k = some ds ∧ m ∈ ds := by
  intro m hm
  by_cases hk : k = r
  · subst hk
    cases hg : dm.get k with
    | none =>
      rw [clearDependent_eq_none hg, hg] at h
      cases h
    | some deps =>
      rw [clearDependent_eq_some hg, SMap.get_set_self] at h
      cases h
      exact ⟨deps, rfl, setErase_subset deps p m hm⟩
  · rw [clearDependent_get_ne p dm r k hk] at h
    exact ⟨ds', h, hm⟩

theorem foldl_clearDependent_origin (p : String) :
    ∀ (refs : List String) (dm : SMap (List String)) (k : String) (ds' : List String),
      (refs.foldl (clearDependent p) dm).get k = some ds' →
      ∀ m ∈ ds', ∃ ds, dm.get k = some ds ∧ m ∈ ds := by
  intro refs
  induction refs with
  | nil => intro dm k ds' h m hm; exact ⟨ds', h, hm⟩
  | cons r rest ih =>
    intro dm k ds' h m hm
    rw [List.foldl_cons] at h
    obtain ⟨ds1, hg1, hm1⟩ := ih _ _ _ h m hm
    exact clearDependent_origin p dm r k ds1 hg1 m hm1

/-! #### Field-level characterisation of the manager operations -/

theorem setParameterValue_expressions (s : PMState) (p : String) (v : JsValue) :
    (setParameterValue s p v).expressions = s.expressions := by
  unfold setParameterValue
  cases s.values.get p <;> rfl

theorem setParameterValue_references (s : PMState) (p : String) (v : JsValue) :
    (setParameterValue s p v).references = s.references := by
  unfold setParameterValue
  cases s.values.get p <;> rfl

theorem setParameterValue_dependents (s : PMState) (p : String) (v : JsValue) :
    (setParameterValue s p v).dependents = s.dependents := by
  unfold setParameterValue
  cases s.values.get p <;> rfl

theorem evaluateExpression_eq_no_expr {s : PMState} {p : String}
    (h : s.expressions.get p = none) : evaluateExpression s p = s := by
  unfold evaluateExpression
  rw [h]

theorem evaluateExpression_eq_ok {s : PMState} {p e : String} {r : Q}
    (h1 : s.expressions.get p = some e)
    (h2 : evalArith (substituteRefs s.values e) = some r) :
    evaluateExpression s p = setParameterValue s p (.num (.val r)) := by
  unfold evaluateExpression
  rw [h1]
  simp only [h2]

theorem evaluateExpression_expressions (s : PMState) (p : String) :
    (evaluateExpression s p).expressions = s.expressions := by
  cases h1 : s.expressions.get p with
  | none => rw [evaluateExpression_eq_no_expr h1]
  | some e =>
    cases h2 : evalArith (substituteRefs s.values e) with
    | none => rw [evaluateExpression_failure s p e h1 h2]
    | some r => rw [evaluateExpression_eq_ok h1 h2, setParameterValue_expressions]

theorem evaluateExpression_references (s : PMState) (p : String) :
    (evaluateExpression s p).references = s.references := by
  cases h1 : s.expressions.get p with
  | none => rw [evaluateExpression_eq_no_expr h1]
  | some e =>
    cases h2 : evalArith (substituteRefs s.values e) with
    | none => rw [evaluateExpression_failure s p e h1 h2]
    | some r => rw [evaluateExpression_eq_ok h1 h2, setParameterValue_references]

theorem evaluateExpression_dependents (s : PMState) (p : String) :
    (evaluateExpression s p).dependents = s.dependents := by
  cases h1 : s.expressions.get p with
  | none => rw [evaluateExpression_eq_no_expr h1]
  | some e =>
    cases h2 : evalArith (substituteRefs s.values e) with
    | none => rw [evaluateExpression_failure s p e h1 h2]
    | some r => rw [evaluateExpression_eq_ok h1 h2, setParameterValue_dependents]

theorem setExpression_expressions (s : PMState) (p e : String) :
    (setExpression s p e).expressions = s.expressions.set p e := by
  unfold setExpression
  rw [evaluateExpression_expressions]

theorem setExpression_references (s : PMState) (p e : String) :
    (setExpression s p e).references = s.references.set p (extractReferences e) := by
  unfold setExpression
  rw [evaluateExpression_references]

theorem setExpression_dependents_none {s : PMState} {p : String} (e : String)
    (h : s.references.get p = none) :
    (setExpression s p e).dependents =
      (extractReferences e).foldl (addDependent p) s.dependents := by
  unfold setExpression
  rw [evaluateExpression_dependents]
  rw [show s.references.get p = none from h]

theorem setExpression_dependents_some {s : PMState} {p : String} (e : String)
    {oldRefs : List String} (h : s.references.get p = some oldRefs) :
    (setExpression s p e).dependents =
      (extractReferences e).foldl (addDependent p)
        (oldRefs.foldl (removeDependent p) s.dependents) := by
  unfold setExpression
  rw [evaluateExpression_dependents]
  rw [show s.references.get p = some oldRefs from h]

theorem clearExpression_eq_none {s : PMState} {p : String}
    (h : s.references.get p = none) :
    clearExpression s p = { s with expressions := s.expressions.del p } := by
  simp only [clearExpression]
  rw [h]

theorem clearExpression_eq_some {s : PMState} {p : String} {refs : List String}
    (h : s.references.get p = some refs) :
    clearExpression s p =
      { s with
        expressions := s.expressions.del p
        references := s.references.del p
        dependents := refs.foldl (clearDependent p) s.dependents } := by
  simp only [clearExpression]
  rw [h]

/-! #### Preservation of the graph-inverse invariant -/

theorem setExpression_preserves (s : PMState) (p e : String) (h : GraphInverse s) :
    GraphInverse (setExpression s p e) := by
  obtain ⟨hD, hR⟩ := h
  constructor
  · unfold DependentsSound
    intro k ds hget m hmds
    rw [setExpression_references]
    by_cases hmp : m = p
    · subst hmp
      rw [SMap.get_set_self]
      refine ⟨extractReferences e, rfl, ?_⟩
      by_contra hk
      cases hold : s.references.get m with
      | none =>
        rw [setExpression_dependents_none e hold] at hget
        rw [foldl_addDependent_get_notmem _ _ _ _ hk] at hget
        obtain ⟨rs, hrs, _⟩ := hD k ds hget m hmds
        rw [hold] at hrs
        cases hrs
      | some oldRefs =>
        rw [setExpression_dependents_some e hold] at hget
        rw [foldl_addDependent_get_notmem _ _ _ _ hk] at hget
        by_cases hko : k ∈ oldRefs
        · exact foldl_removeDependent_removed m oldRefs s.dependents k hko ds hget hmds
        · rw [foldl_removeDependent_get_notmem _ _ _ _ hko] at hget
          obtain ⟨rs, hrs, hkrs⟩ := hD k ds hget m hmds
          rw [hold] at hrs
          cases hrs
          exact hko hkrs
    · rw [SMap.get_set_ne _ _ hmp]
      have horigin : ∃ ds0, s.dependents.get k = some ds0 ∧ m ∈ ds0 := by
        cases hold : s.references.get p with
        | none =>
          rw [setExpression_dependents_none e hold] at hget
          rcases foldl_addDependent_origin p _ _ _ _ hget m hmds with h1 | h1
          · exact absurd h1 hmp
          · exact h1
        | some oldRefs =>
          rw [setExpression_dependents_some e hold] at hget
          rcases foldl_addDependent_origin p _ _ _ _ hget m hmds with h1 | h1
          · exact absurd h1 hmp
          · obtain ⟨ds1, hg1, hm1⟩ := h1
            exact foldl_removeDependent_origin p _ _ _ _ hg1 m hm1
      obtain ⟨ds0, hg0, hm0⟩ := horigin
      exact hD k ds0 hg0 m hm0
  · unfold ReferencesSound
    intro m rs hget r hr
    rw [setExpression_references] at hget
    by_cases hmp : m = p
    · subst hmp
      rw [SMap.get_set_self] at hget
      cases hget
      cases hold : s.references.get m with
      | none =>
        rw [setExpression_dependents_none e hold]
        exact foldl_addDependent_added m _ _ r hr
      | some oldRefs =>
        rw [setExpression_dependents_some e hold]
        exact foldl_addDependent_added m _ _ r hr
    · rw [SMap.get_set_ne _ _ hmp] at hget
      have hds := hR m rs hget r hr
      cases hold : s.references.get p with
      | none =>
        rw [setExpression_dependents_none e hold]
        exact foldl_addDependent_keep p _ _ r m hds
      | some oldRefs =>
        rw [setExpression_dependents_some e hold]
        exact foldl_addDependent_keep p _ _ r m
          (foldl_removeDependent_keep p _ _ r m hmp hds)

theorem clearExpression_preserves (s : PMState) (p : String) (h : GraphInverse s) :
    GraphInverse (clearExpression s p) := by
  obtain ⟨hD, hR⟩ := h
  cases hold : s.references.get p with
  | none =>
    rw [clearExpression_eq_none hold]
    constructor
    · unfold DependentsSound
      intro k ds hget m hm
      exact hD k ds hget m hm
    · unfold ReferencesSound
      intro m rs hget r hr
      exact hR m rs hget r hr
  | some refs =>
    rw [clearExpression_eq_some hold]
    constructor
    · unfold DependentsSound
      intro k ds hget m hm
      have hget' : (refs.foldl (clearDependent p) s.dependents).get k = some ds := hget
      by_cases hmp : m = p
      · subst hmp
        exfalso
        obtain ⟨ds0, hg0, hm0⟩ :=
          foldl_clearDependent_origin m refs s.dependents k ds hget' m hm
        obtain ⟨rs0, hrs0, hk0⟩ := hD k ds0 hg0 m hm0
        rw [hold] at hrs0
        cases hrs0
        exact foldl_clearDependent_removed m refs s.dependents k hk0 ds hget' hm
      · obtain ⟨ds0, hg0, hm0⟩ :=
          foldl_clearDependent_origin p refs s.dependents k ds hget' m hm
        obtain ⟨rs0, hrs0, hk0⟩ := hD k ds0 hg0 m hm0
        refine ⟨rs0, ?_, hk0⟩
        show (s.references.del p).get m = some rs0
        rw [SMap.get_del_ne _ hmp]
        exact hrs0
    · unfold ReferencesSound
      intro m rs' hget r hr
      have hget' : (s.references.del p).get m = some rs' := hget
      by_cases hmp : m = p
      · subst hmp
        rw [show (s.references.del m).get m = none from SMap.get_del_self _ _] at hget'
        cases hget'
      · rw [SMap.get_del_ne _ hmp] at hget'
        have hds := hR m rs' hget' r hr
        exact foldl_clearDependent_keep p refs s.dependents r m hmp hds

theorem pmInit_graphInverse (values : SMap JsValue) : GraphInverse (pmInit values) := by
  constructor
  · unfold DependentsSound
    intro k ds hget
    simp [pmInit, SMap.empty, SMap.get] at hget
  · unfold ReferencesSound
    intro m rs hget
    simp [pmInit, SMap.empty, SMap.get] at hget

theorem applyOp_preserves (s : PMState) (op : Op) (h : GraphInverse s) :
    GraphInverse (applyOp s op) := by
  cases op with
  | setE p e => exact setExpression_preserves s p e h
  | clearE p => exact clearExpression_preserves s p h

theorem runOps_graphInverse :
    ∀ (ops : List Op) (s : PMState), GraphInverse s → GraphInverse (runOps s ops) := by
  intro ops
  induction ops with
  | nil => intro s h; exact h
  | cons op rest ih =>
    intro s h
    exact ih _ (applyOp_preserves s op h)

/-- C5: after any finite sequence of `setExpression`/`clearExpression`
calls starting from the empty graph, `dependents` is the exact inverse of
`references`: every member `m` of `dependents[k]` has `k` among
`references[m]`, and conversely every reference `r` of a parameter `m`
holding an expression has `m` in `dependents[r]`. -/
theorem c5_graph_inverse (values : SMap JsValue) (ops : List Op) :
    (∀ k ds, (runOps (pmInit values) ops).dependents.get k = some ds →
      ∀ m ∈ ds, ∃ rs, (runOps (pmInit values) ops).references.get m = some rs ∧
        k ∈ rs) ∧
    (∀ m e, (runOps (pmInit values) ops).expressions.get m = some e →
      ∀ rs, (runOps (pmInit values) ops).references.get m = some rs →
        ∀ r ∈ rs, ∃ ds, (runOps (pmInit values) ops).dependents.get r = some ds ∧
          m ∈ ds) := by
  have h := runOps_graphInverse ops (pmInit values) (pmInit_graphInverse values)
  exact ⟨h.1, fun m _ _ rs hrs r hr => h.2 m rs hrs r hr⟩

/-- Witness for C5 after `setExpression("B","${A}")`,
`setExpression("C","${A}")`, `clearExpression("C")`. -/
theorem c5_graph_inverse_witness :
    (∃ rs, (runOps (pmInit fun _ => some (.num (.val (Q.ofNat 1))))
        [Op.setE "B" "$\x7bA\x7d", Op.setE "C" "$\x7bA\x7d", Op.clearE "C"]).references.get "B"
          = some rs ∧ "A" ∈ rs) ∧
    (∃ ds, (runOps (pmInit fun _ => some (.num (.val (Q.ofNat 1))))
        [Op.setE "B" "$\x7bA\x7d", Op.setE "C" "$\x7bA\x7d", Op.clearE "C"]).dependents.get "A"
          = some ds ∧ "B" ∈ ds) :=
  ⟨(c5_graph_inverse (fun _ => some (.num (.val (Q.ofNat 1))))
      [Op.setE "B" "$\x7bA\x7d", Op.setE "C" "$\x7bA\x7d", Op.clearE "C"]).1
      "A" ["B"] (by decide) "B" (by decide),
   (c5_graph_inverse (fun _ => some (.num (.val (Q.ofNat 1))))
      [Op.setE "B" "$\x7bA\x7d", Op.setE "C" "$\x7bA\x7d", Op.clearE "C"]).2
      "B" "$\x7bA\x7d" (by decide) ["A"] (by decide) "A" (by decide)⟩
